import Mathlib

/-!
# Verification of the `linalgo` matrix engine

Shallow embedding of `src/matrix/matrix.go` (package `matrix`).  Go `float64`
values are modelled as exact rationals (`ℚ`): every claim under study is about
the algorithmic structure of the code (branching, shapes, recursion, the
`1e-10` tolerance threshold), not about rounding of IEEE floats.  A Go matrix
`Matrix{data, nbRows, nbCols}` becomes a Lean structure with a list-of-lists
payload and the two declared extents, exactly as in the source.  Go methods
returning `(T, error)` become `Except LinError T`, where `LinError` is the
error taxonomy of the specification (§7): each `fmt.Errorf` site is mapped to
its kind.  Out-of-range indexing (a Go panic) is modelled by `List.getD` with
a junk default; all claims are stated over well-formed matrices, where every
access performed by the code is in bounds.
-/

namespace Linalgo

/-- The specification's error taxonomy (§7): shape violations on construction,
dimension mismatches of binary operations, non-square inputs to
determinant/power/invert, and singular inputs to invert/pow. -/
inductive LinError : Type where
  | shapeError : LinError
  | dimensionMismatch : LinError
  | notSquareError : LinError
  | singularError : LinError
deriving DecidableEq, Repr

/-- Go struct `Matrix { data [][]float64; nbRows int; nbCols int }`. -/
structure Matrix : Type where
  data : List (List ℚ)
  nbRows : ℕ
  nbCols : ℕ
deriving DecidableEq, Repr

instance {ε α : Type} [DecidableEq ε] [DecidableEq α] : DecidableEq (Except ε α) :=
  fun x y =>
  match x, y with
  | .ok a, .ok b =>
    if h : a = b then isTrue (by rw [h]) else isFalse (by intro hc; cases hc; exact h rfl)
  | .error a, .error b =>
    if h : a = b then isTrue (by rw [h]) else isFalse (by intro hc; cases hc; exact h rfl)
  | .ok _, .error _ => isFalse (by intro hc; cases hc)
  | .error _, .ok _ => isFalse (by intro hc; cases hc)

/-- The pivot / zero-detection threshold `1e-10` used throughout the
row-echelon, rank and inversion code. -/
def tol : ℚ := 1 / 10 ^ 10

/-- Go `m.data[row][col]` (`GetElementAt`).  Out-of-range access, a panic in
Go, yields the junk default `0`; every claim only reads in-range positions of
well-formed matrices. -/
def Matrix.get (m : Matrix) (row col : ℕ) : ℚ :=
  (m.data.getD row []).getD col 0

/-- The shape invariant of the data model (§3): the declared extents agree
with the actual row sequence, and every row has exactly `nbCols` elements. -/
def Matrix.WF (m : Matrix) : Prop :=
  m.data.length = m.nbRows ∧ ∀ row ∈ m.data, row.length = m.nbCols

instance (m : Matrix) : Decidable m.WF := by
  unfold Matrix.WF; infer_instance

/-- Go `New(nbRowsMat, nbColsMat)`: an all-zero matrix of the given shape
(`make` zero-initialises). -/
def New (nbRowsMat nbColsMat : ℕ) : Matrix :=
  { data := List.replicate nbRowsMat (List.replicate nbColsMat 0)
    nbRows := nbRowsMat
    nbCols := nbColsMat }

/-- Go `NewFromData(mData)`: zero rows yield the canonical 0×0 matrix; a row
whose length differs from the first row's length is an error
(`ShapeError`); otherwise the input is deep-copied (a functional deep copy is
the identity on the value). -/
def NewFromData (mData : List (List ℚ)) : Except LinError Matrix :=
  if mData.length = 0 then
    .ok { data := [], nbRows := 0, nbCols := 0 }
  else
    let nbCols := (mData.headD []).length
    if mData.all (fun row => row.length = nbCols) then
      .ok { data := mData, nbRows := mData.length, nbCols := nbCols }
    else
      .error .shapeError

/-- Go `NewIdentity(size)`: zero matrix with the diagonal set to `1.0`,
expressed pointwise. -/
def NewIdentity (size : ℕ) : Matrix :=
  { data := (List.range size).map (fun i =>
      (List.range size).map (fun j => if j = i then (1 : ℚ) else 0))
    nbRows := size
    nbCols := size }

/-- Go `NewFromFlat(rows, cols, values)`: the source panics when the element
count does not match; the panic is modelled as a `ShapeError` result (§7
recommends the recoverable reading). -/
def NewFromFlat (rows cols : ℕ) (values : List ℚ) : Except LinError Matrix :=
  if values.length ≠ rows * cols then .error .shapeError
  else
    .ok { data := (List.range rows).map (fun i =>
            (List.range cols).map (fun j => values.getD (i * cols + j) 0))
          nbRows := rows
          nbCols := cols }

/-- Go `NewDiagonal(values)`: square matrix with `values[i]` on the diagonal,
zero elsewhere, expressed pointwise. -/
def NewDiagonal (values : List ℚ) : Matrix :=
  { data := (List.range values.length).map (fun i =>
      (List.range values.length).map (fun j =>
        if j = i then values.getD i 0 else 0))
    nbRows := values.length
    nbCols := values.length }

/-- Go `IsSquare()`. -/
def Matrix.IsSquare (m : Matrix) : Bool :=
  m.nbCols == m.nbRows

/-- Go `IsZero()`: scans indices `i < nbRows`, `j < nbCols`. -/
def Matrix.IsZero (m : Matrix) : Bool :=
  (List.range m.nbRows).all (fun i =>
    (List.range m.nbCols).all (fun j => m.get i j == 0))

/-- Go `Add(other)`: dimension check, then a pointwise sum into a fresh
matrix. -/
def Matrix.Add (m other : Matrix) : Except LinError Matrix :=
  if m.nbRows ≠ other.nbRows ∨ m.nbCols ≠ other.nbCols then
    .error .dimensionMismatch
  else
    .ok { data := (List.range m.nbRows).map (fun i =>
            (List.range m.nbCols).map (fun j => m.get i j + other.get i j))
          nbRows := m.nbRows
          nbCols := m.nbCols }

/-- Go `Sub(other)`: dimension check, then a pointwise difference into a
fresh matrix. -/
def Matrix.Sub (m other : Matrix) : Except LinError Matrix :=
  if m.nbRows ≠ other.nbRows ∨ m.nbCols ≠ other.nbCols then
    .error .dimensionMismatch
  else
    .ok { data := (List.range m.nbRows).map (fun i =>
            (List.range m.nbCols).map (fun j => m.get i j - other.get i j))
          nbRows := m.nbRows
          nbCols := m.nbCols }

/-- Go `MulScalar(scalar)`: the short-circuit returns the receiver itself
when it is the zero matrix or the scalar is `1.0`; otherwise a fresh
pointwise product. -/
def Matrix.MulScalar (m : Matrix) (scalar : ℚ) : Matrix :=
  if m.IsZero || scalar == 1 then m
  else
    { data := (List.range m.nbRows).map (fun i =>
        (List.range m.nbCols).map (fun j => m.get i j * scalar))
      nbRows := m.nbRows
      nbCols := m.nbCols }

/-- Go `Mul(other)`: dimension check, zero-operand short-circuit to a fresh
zero matrix, otherwise the triple-nested accumulation
`value += m.data[i][idx] * other.data[idx][j]` written as a sum over
`idx < m.nbCols`. -/
def Matrix.Mul (m other : Matrix) : Except LinError Matrix :=
  if m.nbCols ≠ other.nbRows then .error .dimensionMismatch
  else if m.IsZero || other.IsZero then .ok (New m.nbRows other.nbCols)
  else
    .ok { data := (List.range m.nbRows).map (fun i =>
            (List.range other.nbCols).map (fun j =>
              ((List.range m.nbCols).map (fun idx =>
                m.get i idx * other.get idx j)).sum))
          nbRows := m.nbRows
          nbCols := other.nbCols }

/-- Go `Transpose()`: any matrix with a zero extent maps to the 0×0 matrix;
otherwise a fresh `nbCols × nbRows` matrix with `result[j][i] =
m.data[i][j]`. -/
def Matrix.Transpose (m : Matrix) : Matrix :=
  if m.nbRows = 0 ∨ m.nbCols = 0 then New 0 0
  else
    { data := (List.range m.nbCols).map (fun j =>
        (List.range m.nbRows).map (fun i => m.get i j))
      nbRows := m.nbCols
      nbCols := m.nbRows }

/-- Go `getMinor(rowToRemove, colToRemove)`: keeps the rows `i ≠ rowToRemove`
and, within each, the columns `j ≠ colToRemove` (loops bounded by the
declared extents).  The source drops `NewFromData`'s error with `_`; the
(unreachable for well-formed input) error case is modelled by the empty
matrix. -/
def Matrix.getMinor (m : Matrix) (rowToRemove colToRemove : ℕ) : Matrix :=
  match NewFromData (((List.range m.nbRows).filter (fun i => i ≠ rowToRemove)).map
    (fun i => ((List.range m.nbCols).filter (fun j => j ≠ colToRemove)).map
      (fun j => m.get i j))) with
  | .ok minor => minor
  | .error _ => { data := [], nbRows := 0, nbCols := 0 }

/-- The body of Go `determinantRecursive()`, with an explicit structural fuel
to express the recursion through minors.  `fuel = m.nbRows` reproduces the
source exactly: the 1×1 and 2×2 bases are closed forms, and for larger
matrices each minor has one row fewer, so the fuel never runs out on a
well-formed square matrix (the `fuel = 0` value `0.0` is also the source's
value for the 0×0 matrix, whose column loop is empty). -/
def detAux : ℕ → Matrix → ℚ
  | 0, _ => 0
  | fuel + 1, m =>
    if m.nbRows = 1 then m.get 0 0
    else if m.nbRows = 2 then
      m.get 0 0 * m.get 1 1 - m.get 0 1 * m.get 1 0
    else
      ((List.range m.nbCols).map (fun col =>
        (if col % 2 ≠ 0 then (-1 : ℚ) else 1) * m.get 0 col *
          detAux fuel (m.getMinor 0 col))).sum

/-- Go `determinantRecursive()`: Laplace expansion along row 0. -/
def Matrix.determinantRecursive (m : Matrix) : ℚ :=
  detAux m.nbRows m

/-- Go `Determinant()`: `NotSquareError` on a non-square receiver, otherwise
the recursive Laplace expansion. -/
def Matrix.Determinant (m : Matrix) : Except LinError ℚ :=
  if !m.IsSquare then .error .notSquareError
  else .ok m.determinantRecursive

/-- Go's parallel row swap `d[i], d[j] = d[j], d[i]`. -/
def swapRows (d : List (List ℚ)) (i j : ℕ) : List (List ℚ) :=
  (d.set i (d.getD j [])).set j (d.getD i [])

/-- The pivot search of `ToRowEchelon`: the first row `r` in
`[row, nbRows)` whose entry in column `col` has absolute value above the
threshold (`pivotRow = -1` becomes `none`). -/
def pivotSearch (d : List (List ℚ)) (row nbRows col : ℕ) : Option ℕ :=
  ((List.range nbRows).drop row).find? (fun r => tol < |(d.getD r []).getD col 0|)

/-- The elimination step of `ToRowEchelon`: for every row `r` with
`row < r < nbRows`, subtract `factor * ref.data[row][c]` from entry `c` for
`col ≤ c < nbCols`, where `factor = ref.data[r][col] / ref.data[row][col]`
is read before the row is modified (only row `r` changes, so the pivot row
read inside the inner loop is the original one). -/
def elimBelow (d : List (List ℚ)) (row col nbCols : ℕ) : List (List ℚ) :=
  d.mapIdx (fun r rowData =>
    if row < r ∧ r < d.length then
      let factor := rowData.getD col 0 / (d.getD row []).getD col 0
      rowData.mapIdx (fun c v =>
        if col ≤ c ∧ c < nbCols then v - factor * (d.getD row []).getD c 0 else v)
    else rowData)

/-- One iteration of the column loop of `ToRowEchelon`, at column `col`,
carrying the state `(ref.data, row)`.  The loop condition
`col < nbCols && row < nbRows` is mirrored by the outer guard: once the row
counter reaches `nbRows` the Go loop exits and the state never changes
again. -/
def refStep (nbRows nbCols : ℕ) (st : List (List ℚ) × ℕ) (col : ℕ) :
    List (List ℚ) × ℕ :=
  let d := st.1
  let row := st.2
  if row < nbRows then
    match pivotSearch d row nbRows col with
    | none => (d, row)
    | some pivotRow =>
      let d1 := if pivotRow ≠ row then swapRows d row pivotRow else d
      (elimBelow d1 row col nbCols, row + 1)
  else st

/-- Go `ToRowEchelon()`: a 0-row or 0-column matrix yields a fresh
same-shaped zero matrix; otherwise Gaussian elimination on a deep copy (the
copy validates the shape, and the panic on invalid data — unreachable on a
well-formed receiver — is modelled by returning the empty matrix). -/
def Matrix.ToRowEchelon (m : Matrix) : Matrix :=
  if m.nbRows = 0 ∨ m.nbCols = 0 then New m.nbRows m.nbCols
  else
    match NewFromData m.data with
    | .error _ => { data := [], nbRows := 0, nbCols := 0 }
    | .ok ref =>
      { data := ((List.range ref.nbCols).foldl
          (refStep ref.nbRows ref.nbCols) (ref.data, 0)).1
        nbRows := ref.nbRows
        nbCols := ref.nbCols }

/-- Go `Rank()`: the number of rows of the row-echelon form that contain an
entry of absolute value above the threshold. -/
def Matrix.Rank (m : Matrix) : ℕ :=
  m.ToRowEchelon.data.countP (fun row => row.any (fun val => tol < |val|))

/-- Go `IsFullRank()`. -/
def Matrix.IsFullRank (m : Matrix) : Bool :=
  m.Rank == min m.nbRows m.nbCols

/-- Go `IsInvertible()`: full rank, square, and determinant of absolute
value at least the threshold. -/
def Matrix.IsInvertible (m : Matrix) : Bool :=
  if !m.IsFullRank then false
  else if !m.IsSquare then false
  else
    match m.Determinant with
    | .error _ => false
    | .ok determinant => !(|determinant| < tol)

/-- The pivot selection of the Gauss-Jordan loop of `Invert`: starting from
`(i, |copy[i][i]|)`, scan rows `i+1 .. n-1` keeping the first row whose
entry in column `i` strictly increases the running maximum. -/
def findPivot (mc : List (List ℚ)) (i n : ℕ) : ℕ × ℚ :=
  ((List.range n).drop (i + 1)).foldl
    (fun acc r =>
      let v := |(mc.getD r []).getD i 0|
      if acc.2 < v then (r, v) else acc)
    (i, |(mc.getD i []).getD i 0|)

/-- Divide the entries `col < n` of row `i` by `pivotVal` (the normalisation
loop of `Invert`). -/
def normalizeRow (d : List (List ℚ)) (i n : ℕ) (pivotVal : ℚ) :
    List (List ℚ) :=
  d.set i ((d.getD i []).mapIdx (fun col v => if col < n then v / pivotVal else v))

/-- The elimination loop of `Invert`: for every row `r ≠ i` (with `r < n`),
subtract `factor * src.data[i][col]` from entry `col < n`, where
`factor = facs[r]` was read from column `i` of the working copy before any
row was modified (Go reads `matrixCopy.data[row][i]` which rows `≠ i` still
hold unmodified when their turn comes, since each iteration only writes its
own row). -/
def elimOthers (d : List (List ℚ)) (facs : List ℚ) (i n : ℕ) :
    List (List ℚ) :=
  d.mapIdx (fun r rowData =>
    if r ≠ i ∧ r < n then
      rowData.mapIdx (fun col v =>
        if col < n then v - facs.getD r 0 * (d.getD i []).getD col 0 else v)
    else rowData)

/-- One iteration of the Gauss-Jordan column loop of `Invert` at column `i`,
acting on the pair (working copy, accumulating inverse): pivot selection with
partial pivoting, singularity check, row swap in both matrices, pivot-row
normalisation in both, and elimination of column `i` from every other row in
both. -/
def gjStep (n : ℕ) (st : List (List ℚ) × List (List ℚ)) (i : ℕ) :
    Except LinError (List (List ℚ) × List (List ℚ)) :=
  let mc := st.1
  let inv := st.2
  let pivot := (findPivot mc i n).1
  let maxVal := (findPivot mc i n).2
  if maxVal < tol then .error .singularError
  else
    let mc1 := if pivot ≠ i then swapRows mc i pivot else mc
    let inv1 := if pivot ≠ i then swapRows inv i pivot else inv
    let pivotVal := (mc1.getD i []).getD i 0
    let mc2 := normalizeRow mc1 i n pivotVal
    let inv2 := normalizeRow inv1 i n pivotVal
    let facs := mc2.map (fun rowData => rowData.getD i 0)
    (.ok (elimOthers mc2 facs i n, elimOthers inv2 facs i n))

/-- Go `Invert()`: singular unless `IsInvertible`; then a (dead, defensive)
non-square check; then the 2×2 closed form with its defensive determinant
re-check; otherwise Gauss-Jordan elimination with partial pivoting on a deep
copy, accumulating the inverse starting from the identity. -/
def Matrix.Invert (m : Matrix) : Except LinError Matrix :=
  if !m.IsInvertible then .error .singularError
  else if !m.IsSquare then .error .notSquareError
  else if m.nbCols = 2 then
    let a := m.get 0 0
    let b := m.get 0 1
    let c := m.get 1 0
    let d := m.get 1 1
    let det := a * d - b * c
    if |det| < tol then .error .singularError
    else
      let invDet := 1 / det
      NewFromData [[d * invDet, -b * invDet], [-c * invDet, a * invDet]]
  else
    match NewFromData m.data with
    | .error _ => .error .shapeError
    | .ok matrixCopy =>
      let invMatrix := NewIdentity m.nbRows
      let n := m.nbRows
      match (List.range n).foldlM (gjStep n) (matrixCopy.data, invMatrix.data) with
      | .error e => .error e
      | .ok st => .ok { data := st.2, nbRows := n, nbCols := n }

/-- Go `Pow(power)`: non-square is an error; power 0 is the identity; power
1 is a deep copy; a negative power inverts first (any inversion failure is
reported as the singular case) and then repeated multiplication starting
from the identity, `|power|` times. -/
def Matrix.Pow (m : Matrix) (power : ℤ) : Except LinError Matrix :=
  if !m.IsSquare then .error .notSquareError
  else if power = 0 then .ok (NewIdentity m.nbRows)
  else if power = 1 then NewFromData m.data
  else
    let baseE : Except LinError Matrix :=
      if power < 0 then
        match m.Invert with
        | .error _ => .error .singularError
        | .ok b => .ok b
      else .ok m
    match baseE with
    | .error e => .error e
    | .ok base =>
      (List.range power.natAbs).foldlM
        (fun result _ => result.Mul base) (NewIdentity m.nbRows)

/-- The loop invariant of `ToRowEchelon`'s column loop, after the columns
`< col` have been processed with state `st = (data, row counter)`: the
counter never exceeds the number of processed columns nor the row count,
the shape is preserved, and every row at or below the counter holds only
entries of absolute value at most the threshold in the processed columns. -/
def RefInv (nbRows nbCols col : ℕ) (st : List (List ℚ) × ℕ) : Prop :=
  st.2 ≤ col ∧ st.2 ≤ nbRows ∧ st.1.length = nbRows ∧
    (∀ r < st.1.length, ((st.1.getD r []).length = nbCols)) ∧
    (∀ r, st.2 ≤ r → ∀ c < col, |(st.1.getD r []).getD c 0| ≤ tol)

/-! ## The reference determinant of the specification (for claim C1)

These two definitions follow the specification's words, not the source:
`det = Σ_col (-1)^col * A[0][col] * det(minor(0,col))`, with the stated
0×0, 1×1 and 2×2 base cases, where `minor(i,j)` removes row `i` and column
`j`.  They exist to be compared with the embedded `determinantRecursive`. -/

/-- The specification's `minor(i,j)`: the entry function of the matrix with
row `i` and column `j` removed. -/
def specMinor (A : ℕ → ℕ → ℚ) (i j : ℕ) : ℕ → ℕ → ℚ :=
  fun r c => A (if r < i then r else r + 1) (if c < j then c else c + 1)

/-- The specification's reference Laplace-expansion determinant of an
`n × n` entry function: `0.0` for `n = 0`, the sole element for `n = 1`,
`ad - bc` for `n = 2`, and for `n ≥ 3` the signed sum over columns of the
minors' determinants. -/
def specDet : (n : ℕ) → (ℕ → ℕ → ℚ) → ℚ
  | 0, _ => 0
  | 1, A => A 0 0
  | 2, A => A 0 0 * A 1 1 - A 0 1 * A 1 0
  | n + 3, A =>
    ((List.range (n + 3)).map (fun col =>
      (-1 : ℚ) ^ col * A 0 col * specDet (n + 2) (specMinor A 0 col))).sum

/-! ## Basic list-access lemmas -/

lemma getD_eq_getElem {α : Type} (l : List α) {i : ℕ} (h : i < l.length) (d : α) :
    l.getD i d = l[i] := by
  simp [List.getD, List.getElem?_eq_getElem, h]

lemma getD_eq_default {α : Type} (l : List α) {i : ℕ} (h : l.length ≤ i) (d : α) :
    l.getD i d = d := by
  simp [List.getD, List.getElem?_eq_none, h]

lemma getD_map_range {α : Type} (f : ℕ → α) {i n : ℕ} (h : i < n) (d : α) :
    ((List.range n).map f).getD i d = f i := by
  simp [List.getD, List.getElem?_map, List.getElem?_range, h]

lemma getD_mem {α : Type} (l : List α) {i : ℕ} (h : i < l.length) (d : α) :
    l.getD i d ∈ l := by
  rw [getD_eq_getElem l h]
  exact List.getElem_mem h

lemma getD_mapIdx {α : Type} (f : ℕ → α → α) (l : List α) {i : ℕ}
    (h : i < l.length) (d : α) :
    (l.mapIdx f).getD i d = f i (l.getD i d) := by
  simp [List.getD, List.getElem?_eq_getElem, h, List.getElem?_mapIdx]

lemma sum_range_finset (n : ℕ) (f : ℕ → ℚ) :
    ((List.range n).map f).sum = ∑ k ∈ Finset.range n, f k := by
  induction n with
  | zero => simp
  | succ m ih => rw [List.range_succ, Finset.sum_range_succ]; simp [ih]

/-- A list of known length is the pointwise tabulation of its `getD` reads. -/
lemma row_canonical (row : List ℚ) {c : ℕ} (h : row.length = c) :
    row = (List.range c).map (fun j => row.getD j 0) := by
  apply List.ext_getElem
  · simp [h]
  · intro j h1 h2
    have hj : j < c := by simpa [h] using h1
    simp [List.getElem?_eq_getElem, h1]

/-! ## The pointwise matrix pattern

Most operations build `{ data := (range R).map fun i => (range C).map fun j
=> g i j, nbRows := R, nbCols := C }`; these lemmas give its shape and
entries once and for all. -/

lemma WF_mk_map (R C : ℕ) (g : ℕ → ℕ → ℚ) :
    (Matrix.mk ((List.range R).map fun i => (List.range C).map fun j => g i j) R C).WF := by
  constructor
  · simp [Matrix.WF]
  · intro row hrow
    simp only [List.mem_map] at hrow
    obtain ⟨i, _, rfl⟩ := hrow
    simp

lemma get_mk_map (R C : ℕ) (g : ℕ → ℕ → ℚ) {i j : ℕ} (hi : i < R) (hj : j < C) :
    (Matrix.mk ((List.range R).map fun i => (List.range C).map fun j => g i j) R C).get i j
      = g i j := by
  simp [Matrix.get, List.getD, List.getElem?_map, List.getElem?_range, hi, hj]

lemma WF_row_length {m : Matrix} (h : m.WF) {i : ℕ} (hi : i < m.nbRows) :
    (m.data.getD i []).length = m.nbCols :=
  h.2 _ (getD_mem m.data (by rw [h.1]; exact hi) [])

/-- A well-formed matrix is exactly the pointwise tabulation of its own
entries. -/
lemma WF_data_canonical {m : Matrix} (h : m.WF) :
    m.data = (List.range m.nbRows).map
      (fun i => (List.range m.nbCols).map fun j => m.get i j) := by
  apply List.ext_getElem
  · simp [h.1]
  · intro i h1 h2
    have hi : i < m.nbRows := by simpa [h.1] using h1
    simp only [List.getElem_map, List.getElem_range]
    have hrow : m.data[i] = m.data.getD i [] := (getD_eq_getElem m.data h1 []).symm
    rw [hrow, row_canonical (m.data.getD i []) (WF_row_length h hi)]
    apply List.map_congr_left
    intro j hj
    rfl

/-- Two well-formed matrices with the same extents and the same entries are
equal. -/
lemma Matrix.ext_of_WF {m₁ m₂ : Matrix} (h₁ : m₁.WF) (h₂ : m₂.WF)
    (hr : m₁.nbRows = m₂.nbRows) (hc : m₁.nbCols = m₂.nbCols)
    (hget : ∀ i < m₁.nbRows, ∀ j < m₁.nbCols, m₁.get i j = m₂.get i j) :
    m₁ = m₂ := by
  cases m₁ with
  | mk d₁ r₁ c₁ =>
    cases m₂ with
    | mk d₂ r₂ c₂ =>
      simp only at hr hc
      subst hr; subst hc
      have hd : d₁ = d₂ := by
        have e₁ := WF_data_canonical h₁
        have e₂ := WF_data_canonical h₂
        simp only at e₁ e₂
        rw [e₁, e₂]
        apply List.map_congr_left
        intro i hi
        apply List.map_congr_left
        intro j hj
        exact hget i (List.mem_range.mp hi) j (List.mem_range.mp hj)
      rw [hd]

/-! ## Entries and shapes of the simple operations -/

lemma New_WF (r c : ℕ) : (New r c).WF := by
  constructor
  · simp [New]
  · intro row hrow
    simp only [New, List.mem_replicate] at hrow
    simp [hrow.2, New]

lemma New_get (r c : ℕ) (i j : ℕ) : (New r c).get i j = 0 := by
  unfold New Matrix.get
  rcases lt_or_le i r with hi | hi
  · rw [show (List.replicate r (List.replicate c (0:ℚ))).getD i [] = List.replicate c 0 by
      rw [getD_eq_getElem _ (by simpa using hi)]; simp]
    rcases lt_or_le j c with hj | hj
    · rw [getD_eq_getElem _ (by simpa using hj)]; simp
    · exact getD_eq_default _ (by simpa using hj) 0
  · rw [getD_eq_default _ (by simpa using hi) []]
    simp [List.getD]

lemma isZero_iff {m : Matrix} :
    m.IsZero = true ↔ ∀ i < m.nbRows, ∀ j < m.nbCols, m.get i j = 0 := by
  unfold Matrix.IsZero
  simp [List.all_eq_true, List.mem_range]

lemma NewIdentity_WF (n : ℕ) : (NewIdentity n).WF := WF_mk_map n n _

lemma NewIdentity_get {n i j : ℕ} (hi : i < n) (hj : j < n) :
    (NewIdentity n).get i j = if j = i then 1 else 0 :=
  get_mk_map n n _ hi hj

/-! ## `NewFromData` -/

lemma NewFromData_ok_data {d : List (List ℚ)} {m : Matrix}
    (h : NewFromData d = .ok m) : m.data = d := by
  unfold NewFromData at h
  by_cases h0 : d.length = 0
  · simp only [h0, if_pos rfl] at h
    cases h
    simpa using (List.length_eq_zero.mp h0).symm
  · simp only [h0, if_neg h0] at h
    by_cases hall : d.all (fun row => row.length = (d.headD []).length)
    · rw [if_pos hall] at h
      cases h
      rfl
    · rw [if_neg hall] at h
      cases h

lemma NewFromData_error_iff (d : List (List ℚ)) :
    NewFromData d = .error .shapeError ↔
      ∃ row ∈ d, row.length ≠ (d.headD []).length := by
  unfold NewFromData
  by_cases h0 : d.length = 0
  · rw [List.length_eq_zero.mp h0]
    simp
  · simp only [if_neg h0]
    by_cases hall : d.all (fun row => row.length = (d.headD []).length)
    · rw [if_pos hall]
      simp only [List.all_eq_true, decide_eq_true_eq] at hall
      constructor
      · intro h; cases h
      · rintro ⟨row, hmem, hne⟩
        exact absurd (hall row hmem) hne
    · rw [if_neg hall]
      simp only [List.all_eq_true, decide_eq_true_eq] at hall
      push_neg at hall
      exact iff_of_true rfl (by simpa using hall)

lemma NewFromData_WF {d : List (List ℚ)} {m : Matrix}
    (h : NewFromData d = .ok m) : m.WF := by
  unfold NewFromData at h
  by_cases h0 : d.length = 0
  · simp only [h0, if_pos rfl] at h
    cases h
    exact ⟨rfl, by simp⟩
  · simp only [h0, if_neg h0] at h
    by_cases hall : d.all (fun row => row.length = (d.headD []).length)
    · rw [if_pos hall] at h
      cases h
      simp only [List.all_eq_true, decide_eq_true_eq] at hall
      exact ⟨rfl, hall⟩
    · rw [if_neg hall] at h
      cases h

/-- On a well-formed square receiver, the deep copy `NewFromData m.data`
returns the receiver itself as a value (for a 0-row matrix this needs
`nbCols = 0`, which squareness provides). -/
lemma NewFromData_self {m : Matrix} (h : m.WF) (hsq : m.IsSquare = true) :
    NewFromData m.data = .ok m := by
  unfold NewFromData
  by_cases h0 : m.data.length = 0
  · rw [if_pos h0]
    have hr : m.nbRows = 0 := by rw [← h.1, h0]
    have hc : m.nbCols = 0 := by
      have := of_decide_eq_true hsq
      omega
    cases m with
    | mk d r c =>
      simp only at hr hc
      subst hr; subst hc
      have : d = [] := List.length_eq_zero.mp h0
      simp [this]
  · rw [if_neg h0]
    have hhead : (m.data.headD []).length = m.nbCols := by
      apply h.2
      cases hd : m.data with
      | nil => exact absurd (by simp [hd]) h0
      | cons a l => simp [hd]
    have hall : m.data.all (fun row => row.length = (m.data.headD []).length) := by
      simp only [List.all_eq_true, decide_eq_true_eq, hhead]
      exact h.2
    rw [if_pos hall]
    cases m with
    | mk d r c =>
      simp only at hhead ⊢
      have h1 : d.length = r := h.1
      simp only [List.headD_eq_head?_getD] at hhead
      simp [h1, hhead]

/-! ## `MulScalar` -/

lemma MulScalar_shortcircuit {m : Matrix} {k : ℚ}
    (h : (m.IsZero || k == 1) = true) : m.MulScalar k = m := by
  unfold Matrix.MulScalar
  rw [if_pos h]

lemma MulScalar_get {m : Matrix} (h : m.WF) (k : ℚ) {i j : ℕ}
    (hi : i < m.nbRows) (hj : j < m.nbCols) :
    (m.MulScalar k).get i j = m.get i j * k := by
  unfold Matrix.MulScalar
  by_cases hsc : (m.IsZero || k == 1) = true
  · rw [if_pos hsc]
    rcases Bool.or_eq_true_iff.mp hsc with hz | hk
    · rw [isZero_iff.mp hz i hi j hj]; ring
    · rw [eq_of_beq hk]; ring
  · rw [if_neg hsc]
    exact get_mk_map _ _ _ hi hj

lemma MulScalar_WF {m : Matrix} (h : m.WF) (k : ℚ) : (m.MulScalar k).WF := by
  unfold Matrix.MulScalar
  by_cases hsc : (m.IsZero || k == 1) = true
  · rw [if_pos hsc]; exact h
  · rw [if_neg hsc]; exact WF_mk_map _ _ _

lemma MulScalar_dims (m : Matrix) (k : ℚ) :
    (m.MulScalar k).nbRows = m.nbRows ∧ (m.MulScalar k).nbCols = m.nbCols := by
  unfold Matrix.MulScalar
  by_cases hsc : (m.IsZero || k == 1) = true
  · rw [if_pos hsc]; exact ⟨rfl, rfl⟩
  · rw [if_neg hsc]; exact ⟨rfl, rfl⟩

/-! ## `Transpose` -/

lemma Transpose_WF (m : Matrix) : m.Transpose.WF := by
  unfold Matrix.Transpose
  by_cases h : m.nbRows = 0 ∨ m.nbCols = 0
  · rw [if_pos h]; exact New_WF 0 0
  · rw [if_neg h]; exact WF_mk_map _ _ _

lemma Transpose_empty {m : Matrix} (h : m.nbRows = 0 ∨ m.nbCols = 0) :
    m.Transpose = New 0 0 := by
  unfold Matrix.Transpose
  rw [if_pos h]

lemma Transpose_dims {m : Matrix} (hr : 0 < m.nbRows) (hc : 0 < m.nbCols) :
    m.Transpose.nbRows = m.nbCols ∧ m.Transpose.nbCols = m.nbRows := by
  unfold Matrix.Transpose
  rw [if_neg (by omega)]
  exact ⟨rfl, rfl⟩

lemma Transpose_get {m : Matrix} (hr : 0 < m.nbRows) (hc : 0 < m.nbCols)
    {i j : ℕ} (hi : i < m.nbRows) (hj : j < m.nbCols) :
    m.Transpose.get j i = m.get i j := by
  unfold Matrix.Transpose
  rw [if_neg (by omega)]
  exact get_mk_map _ _ _ hj hi

lemma Transpose_Transpose {m : Matrix} (hw : m.WF)
    (h : (0 < m.nbRows ∧ 0 < m.nbCols) ∨ (m.nbRows = 0 ∧ m.nbCols = 0)) :
    m.Transpose.Transpose = m := by
  rcases h with ⟨hr, hc⟩ | ⟨hr, hc⟩
  · have hd := Transpose_dims hr hc
    have hr2 : 0 < m.Transpose.nbRows := by omega
    have hc2 : 0 < m.Transpose.nbCols := by omega
    have hd2 := Transpose_dims hr2 hc2
    apply Matrix.ext_of_WF (Transpose_WF m.Transpose) hw
    · omega
    · omega
    · intro i hi j hj
      have hi' : i < m.nbRows := by omega
      have hj' : j < m.nbCols := by omega
      rw [Transpose_get hr2 hc2 (by omega) (by omega),
        Transpose_get hr hc hi' hj']
  · cases m with
    | mk d r c =>
      simp only at hr hc
      subst hr; subst hc
      have hd : d = [] := List.length_eq_zero.mp hw.1
      subst hd
      rfl

/-! ## `Mul` -/

lemma Mul_error_iff (m other : Matrix) :
    m.Mul other = .error .dimensionMismatch ↔ m.nbCols ≠ other.nbRows := by
  unfold Matrix.Mul
  by_cases h : m.nbCols ≠ other.nbRows
  · rw [if_pos h]
    exact iff_of_true rfl h
  · rw [if_neg h]
    by_cases hz : (m.IsZero || other.IsZero) = true
    · rw [if_pos hz]
      constructor
      · intro he; cases he
      · intro hc; exact absurd hc h
    · rw [if_neg hz]
      constructor
      · intro he; cases he
      · intro hc; exact absurd hc h

lemma Mul_zero_shortcircuit {m other : Matrix}
    (h : m.nbCols = other.nbRows)
    (hz : m.IsZero = true ∨ other.IsZero = true) :
    m.Mul other = .ok (New m.nbRows other.nbCols) := by
  unfold Matrix.Mul
  rw [if_neg (by omega), if_pos (by
    rcases hz with h0 | h0
    · rw [h0]; rfl
    · rw [h0]; simp)]

lemma Mul_ok {m other : Matrix} (hm : m.WF) (ho : other.WF)
    (h : m.nbCols = other.nbRows) :
    ∃ p, m.Mul other = .ok p ∧ p.WF ∧ p.nbRows = m.nbRows ∧
      p.nbCols = other.nbCols ∧
      ∀ i < m.nbRows, ∀ j < other.nbCols,
        p.get i j = ∑ k ∈ Finset.range m.nbCols, m.get i k * other.get k j := by
  unfold Matrix.Mul
  rw [if_neg (by omega)]
  by_cases hz : (m.IsZero || other.IsZero) = true
  · rw [if_pos hz]
    refine ⟨New m.nbRows other.nbCols, rfl, New_WF _ _, rfl, rfl, ?_⟩
    intro i hi j hj
    rw [New_get]
    symm
    apply Finset.sum_eq_zero
    intro k hk
    have hk' : k < m.nbCols := Finset.mem_range.mp hk
    rcases Bool.or_eq_true_iff.mp hz with h0 | h0
    · rw [isZero_iff.mp h0 i hi k hk']; ring
    · rw [isZero_iff.mp h0 k (by omega) j hj]; ring
  · rw [if_neg hz]
    refine ⟨_, rfl, WF_mk_map _ _ _, rfl, rfl, ?_⟩
    intro i hi j hj
    rw [get_mk_map _ _ _ hi hj, sum_range_finset]

/-- `multiply(identity(n), B) = B` for a well-formed `n × n` matrix `B`:
needed for the `pow` claims, where repeated multiplication starts from the
identity. -/
lemma Mul_identity_left {n : ℕ} {b : Matrix} (hw : b.WF)
    (hr : b.nbRows = n) (hc : b.nbCols = n) :
    (NewIdentity n).Mul b = .ok b := by
  obtain ⟨p, hp, hpw, hpr, hpc, hpget⟩ :=
    Mul_ok (NewIdentity_WF n) hw (show (NewIdentity n).nbCols = b.nbRows by
      simp [NewIdentity, hr])
  rw [hp]
  congr 1
  apply Matrix.ext_of_WF hpw hw
  · rw [hpr]; simp [NewIdentity, hr]
  · omega
  · intro i hi j hj
    have hi' : i < n := by
      rw [hpr] at hi
      simpa [NewIdentity] using hi
    have hj' : j < b.nbCols := by omega
    rw [hpget i (by simpa [NewIdentity] using hi') j hj']
    rw [show (NewIdentity n).nbCols = n from rfl]
    rw [Finset.sum_eq_single i]
    · rw [NewIdentity_get hi' hi']
      simp
    · intro k hk hki
      rw [NewIdentity_get hi' (Finset.mem_range.mp hk)]
      rw [if_neg (by omega)]
      ring
    · intro hcontra
      exact absurd (Finset.mem_range.mpr hi') hcontra

/-! ## `getMinor` and the determinant -/

lemma getD_map {α β : Type} (f : α → β) (l : List α) {r : ℕ}
    (h : r < l.length) (d : β) :
    (l.map f).getD r d = f l[r] := by
  rw [getD_eq_getElem _ (by simpa using h)]
  simp

lemma filter_range_decomp {n c : ℕ} (h : c < n) :
    (List.range n).filter (fun j => decide (j ≠ c))
      = List.range c ++ List.range' (c + 1) (n - c - 1) := by
  induction n with
  | zero => omega
  | succ m ih =>
    have hfilter_lt : ∀ k : ℕ, c < k →
        (List.range k).filter (fun j => decide (j ≠ k)) = List.range k := by
      intro k _
      apply List.filter_eq_self.mpr
      intro a ha
      simp only [decide_eq_true_eq]
      exact Nat.ne_of_lt (List.mem_range.mp ha)
    rcases Nat.lt_or_ge c m with hc | hc
    · rw [List.range_succ, List.filter_append, ih hc]
      have hm : List.filter (fun j => decide (j ≠ c)) [m] = [m] := by
        simp only [List.filter_cons, List.filter_nil, decide_eq_true_eq]
        rw [if_pos (by omega)]
      rw [hm, List.append_assoc]
      congr 1
      have harith : m + 1 - c - 1 = (m - c - 1) + 1 := by omega
      rw [harith, List.range'_concat]
      congr 2
      omega
    · have hcm : c = m := by omega
      subst hcm
      rw [List.range_succ, List.filter_append]
      have hm : List.filter (fun j => decide (j ≠ c)) [c] = [] := by
        simp
      rw [hm, List.append_nil]
      have h0 : c + 1 - c - 1 = 0 := by omega
      rw [h0]
      simp only [List.range'_zero, List.append_nil]
      apply List.filter_eq_self.mpr
      intro a ha
      simp only [decide_eq_true_eq]
      exact Nat.ne_of_lt (List.mem_range.mp ha)

lemma filter_range_length {n c : ℕ} (h : c < n) :
    ((List.range n).filter (fun j => decide (j ≠ c))).length = n - 1 := by
  rw [filter_range_decomp h]
  simp
  omega

lemma filter_range_getElem {n c i : ℕ} (hc : c < n)
    (hlen : i < ((List.range n).filter (fun j => decide (j ≠ c))).length) :
    ((List.range n).filter (fun j => decide (j ≠ c)))[i]
      = if i < c then i else i + 1 := by
  have hi : i < n - 1 := by
    rw [filter_range_length hc] at hlen
    exact hlen
  rw [List.getElem_of_eq (filter_range_decomp hc)]
  rcases Nat.lt_or_ge i c with h | h
  · rw [List.getElem_append_left (by simpa using h), List.getElem_range, if_pos h]
  · rw [List.getElem_append_right (by simpa using h)]
    rw [List.getElem_range']
    simp only [List.length_range]
    rw [if_neg (by omega)]
    omega

/-- `NewFromData` on a nonempty list of rows of uniform length `c` succeeds
with the evident extents. -/
lemma NewFromData_uniform {d : List (List ℚ)} {c : ℕ} (hne : d ≠ [])
    (hall : ∀ row ∈ d, row.length = c) :
    NewFromData d = .ok (Matrix.mk d d.length c) := by
  unfold NewFromData
  rw [if_neg (by simpa [List.length_eq_zero] using hne)]
  have hhead : (d.headD []).length = c := by
    apply hall
    cases d with
    | nil => exact absurd rfl hne
    | cons a l => simp
  have hallb : d.all (fun row => row.length = (d.headD []).length) := by
    simp only [List.all_eq_true, decide_eq_true_eq, hhead]
    exact hall
  rw [if_pos hallb]
  simp only [List.headD_eq_head?_getD] at hhead
  simp [hhead]

/-- The shape and entries of `getMinor r0 c0` for in-range `r0`, `c0` on a
matrix with at least two (declared) rows. -/
lemma getMinor_spec (m : Matrix) {r0 c0 : ℕ} (hr0 : r0 < m.nbRows)
    (hc0 : c0 < m.nbCols) (h2 : 1 < m.nbRows) :
    (m.getMinor r0 c0).WF ∧ (m.getMinor r0 c0).nbRows = m.nbRows - 1 ∧
      (m.getMinor r0 c0).nbCols = m.nbCols - 1 ∧
      ∀ r < m.nbRows - 1, ∀ c < m.nbCols - 1,
        (m.getMinor r0 c0).get r c
          = m.get (if r < r0 then r else r + 1) (if c < c0 then c else c + 1) := by
  unfold Matrix.getMinor
  set lrows := (List.range m.nbRows).filter (fun i => decide (i ≠ r0)) with hlrows
  set lcols := (List.range m.nbCols).filter (fun j => decide (j ≠ c0)) with hlcols
  have hlrlen : lrows.length = m.nbRows - 1 := filter_range_length hr0
  have hlclen : lcols.length = m.nbCols - 1 := filter_range_length hc0
  set minorData := lrows.map (fun i => lcols.map (fun j => m.get i j)) with hminor
  have hne : minorData ≠ [] := by
    intro hcontra
    have := congrArg List.length hcontra
    simp [hminor, hlrlen] at this
    omega
  have hall : ∀ row ∈ minorData, row.length = m.nbCols - 1 := by
    intro row hrow
    simp only [hminor, List.mem_map] at hrow
    obtain ⟨i, _, rfl⟩ := hrow
    simp [hlclen]
  rw [NewFromData_uniform hne hall]
  have hmdlen : minorData.length = m.nbRows - 1 := by simp [hminor, hlrlen]
  refine ⟨⟨rfl, hall⟩, hmdlen, rfl, ?_⟩
  intro r hr c hc
  have hrl : r < lrows.length := by omega
  have hcl : c < lcols.length := by omega
  have h1 : minorData.getD r [] = lcols.map (fun j => m.get lrows[r] j) :=
    getD_map _ lrows hrl []
  have h2' : (lcols.map (fun j => m.get lrows[r] j)).getD c 0
      = m.get lrows[r] lcols[c] := getD_map _ lcols hcl 0
  show (minorData.getD r []).getD c 0 = _
  rw [h1, h2', filter_range_getElem hr0 hrl, filter_range_getElem hc0 hcl]

/-- `specDet` only reads the entry function inside the `n × n` window. -/
lemma specDet_congr : ∀ n : ℕ, ∀ A B : ℕ → ℕ → ℚ,
    (∀ i < n, ∀ j < n, A i j = B i j) → specDet n A = specDet n B := by
  intro n
  induction n using Nat.strong_induction_on with
  | _ n ih =>
    intro A B hAB
    match n with
    | 0 => rfl
    | 1 => exact hAB 0 (by omega) 0 (by omega)
    | 2 =>
      simp only [specDet]
      rw [hAB 0 (by omega) 0 (by omega), hAB 0 (by omega) 1 (by omega),
        hAB 1 (by omega) 0 (by omega), hAB 1 (by omega) 1 (by omega)]
    | k + 3 =>
      simp only [specDet]
      congr 1
      apply List.map_congr_left
      intro col hcol
      have hcol' : col < k + 3 := List.mem_range.mp hcol
      rw [hAB 0 (by omega) col hcol']
      congr 1
      apply ih (k + 2) (by omega)
      intro i hi j hj
      unfold specMinor
      apply hAB
      · split <;> omega
      · split
        · omega
        · have : j + 1 < k + 3 := by omega
          exact this

/-- The embedded `determinantRecursive` body agrees with the
specification's reference Laplace determinant on every well-formed square
matrix (the fuel argument is the declared row count). -/
lemma detAux_eq_specDet : ∀ n : ℕ, ∀ m : Matrix, m.WF → m.nbRows = n →
    m.nbCols = n → detAux n m = specDet n m.get := by
  intro n
  induction n using Nat.strong_induction_on with
  | _ n ih =>
    intro m hw hr hc
    match n, hr, hc with
    | 0, hr, hc => simp [detAux, specDet]
    | 1, hr, hc => simp [detAux, specDet, hr]
    | 2, hr, hc => simp [detAux, specDet, hr]
    | k + 3, hr, hc =>
      show detAux (k + 2 + 1) m = _
      unfold detAux
      rw [if_neg (by omega), if_neg (by omega)]
      simp only [specDet]
      rw [hc]
      congr 1
      apply List.map_congr_left
      intro col hcol
      have hcol' : col < k + 3 := List.mem_range.mp hcol
      obtain ⟨hmw, hmr, hmc, hmget⟩ :=
        @getMinor_spec m 0 col (by omega) (by omega) (by omega)
      congr 1
      · congr 1
        rcases Nat.even_or_odd col with he | ho
        · rw [if_neg (by simpa [Nat.even_iff] using he), Even.neg_one_pow he]
        · rw [if_pos (by simpa [Nat.odd_iff] using ho), Odd.neg_one_pow ho]
      · rw [ih (k + 2) (by omega) _ hmw (by omega) (by omega)]
        apply specDet_congr
        intro i hi j hj
        rw [hmget i (by omega) j (by omega)]
        rfl

/-! ## Row echelon reduction: invariant, shape, rank bounds -/

lemma tol_pos : (0 : ℚ) < tol := by norm_num [tol]

lemma drop_range (n m : ℕ) : (List.range n).drop m = List.range' m (n - m) := by
  apply List.ext_getElem
  · simp
  · intro i h1 h2
    rw [List.getElem_drop, List.getElem_range, List.getElem_range']
    omega

lemma getD_set_ne {α : Type} (l : List α) {i r : ℕ} (x d : α) (hne : r ≠ i) :
    (l.set i x).getD r d = l.getD r d := by
  simp [List.getD, List.getElem?_set_ne (Ne.symm hne)]

lemma getD_set_self {α : Type} (l : List α) {i : ℕ} (x d : α)
    (h : i < l.length) : (l.set i x).getD i d = x := by
  simp [List.getD, List.getElem?_set_self, h]

lemma swapRows_length (d : List (List ℚ)) (i j : ℕ) :
    (swapRows d i j).length = d.length := by
  simp [swapRows]

lemma swapRows_getD (d : List (List ℚ)) {i j : ℕ} (hi : i < d.length)
    (hj : j < d.length) (r : ℕ) :
    (swapRows d i j).getD r []
      = if r = j then d.getD i [] else if r = i then d.getD j [] else d.getD r [] := by
  unfold swapRows
  by_cases hrj : r = j
  · subst hrj
    rw [if_pos rfl, getD_set_self _ _ _ (by simpa using hj)]
  · rw [if_neg hrj, getD_set_ne _ _ _ hrj]
    by_cases hri : r = i
    · subst hri
      rw [if_pos rfl, getD_set_self _ _ _ hi]
    · rw [if_neg hri, getD_set_ne _ _ _ hri]

lemma elimBelow_length (d : List (List ℚ)) (row col C : ℕ) :
    (elimBelow d row col C).length = d.length := by
  simp [elimBelow]

lemma elimBelow_getD_out {d : List (List ℚ)} {row col C r : ℕ}
    (h : ¬(row < r ∧ r < d.length)) :
    (elimBelow d row col C).getD r [] = d.getD r [] := by
  unfold elimBelow
  rcases Nat.lt_or_ge r d.length with hr | hr
  · rw [getD_mapIdx _ _ hr, if_neg h]
  · rw [getD_eq_default _ (by simpa using hr),
      getD_eq_default _ (by simpa using hr)]

lemma elimBelow_getD_in {d : List (List ℚ)} {row col C r : ℕ}
    (h1 : row < r) (h2 : r < d.length) :
    (elimBelow d row col C).getD r []
      = (d.getD r []).mapIdx (fun c v =>
          if col ≤ c ∧ c < C then
            v - (d.getD r []).getD col 0 / (d.getD row []).getD col 0
              * (d.getD row []).getD c 0
          else v) := by
  unfold elimBelow
  rw [getD_mapIdx _ _ h2, if_pos ⟨h1, h2⟩]

lemma pivotSearch_none_spec {d : List (List ℚ)} {row R col : ℕ}
    (h : pivotSearch d row R col = none) :
    ∀ r, row ≤ r → r < R → |(d.getD r []).getD col 0| ≤ tol := by
  intro r h1 h2
  unfold pivotSearch at h
  rw [drop_range] at h
  have hmem : r ∈ List.range' row (R - row) := by
    rw [List.mem_range']
    exact ⟨r - row, by omega, by omega⟩
  have := List.find?_eq_none.mp h r hmem
  simp only [decide_eq_true_eq] at this
  exact le_of_not_lt this

lemma pivotSearch_some_spec {d : List (List ℚ)} {row R col p : ℕ}
    (h : pivotSearch d row R col = some p) :
    row ≤ p ∧ p < R ∧ tol < |(d.getD p []).getD col 0| := by
  unfold pivotSearch at h
  rw [drop_range] at h
  have hmem := List.mem_of_find?_eq_some h
  have hpred := List.find?_some h
  rw [List.mem_range'] at hmem
  simp only [decide_eq_true_eq] at hpred
  exact ⟨by omega, by omega, hpred⟩

/-- The column step of the row-echelon loop preserves the invariant, moving
the processed-column bound up by one. -/
lemma refStep_inv {R C col : ℕ} {st : List (List ℚ) × ℕ} (hcol : col < C)
    (h : RefInv R C col st) : RefInv R C (col + 1) (refStep R C st col) := by
  obtain ⟨h1, h2, h3, h4, h5⟩ := h
  unfold refStep
  by_cases hrow : st.2 < R
  swap
  · rw [if_neg hrow]
    refine ⟨by omega, h2, h3, h4, ?_⟩
    intro r hr c hc
    rcases Nat.lt_or_ge c col with hcc | hcc
    · exact h5 r hr c hcc
    · have hlen : st.1.length ≤ r := by omega
      rw [getD_eq_default _ hlen []]
      simp [le_of_lt tol_pos]
  · rw [if_pos hrow]
    cases hp : pivotSearch st.1 st.2 R col with
    | none =>
      show RefInv R C (col + 1) (st.1, st.2)
      refine ⟨by omega, h2, h3, h4, ?_⟩
      intro r hr c hc
      rcases Nat.lt_or_ge c col with hcc | hcc
      · exact h5 r hr c hcc
      · have hccol : c = col := by omega
        subst hccol
        rcases Nat.lt_or_ge r R with hrR | hrR
        · exact pivotSearch_none_spec hp r hr hrR
        · have hlen : st.1.length ≤ r := by omega
          rw [getD_eq_default _ hlen []]
          simp [le_of_lt tol_pos]
    | some p =>
      obtain ⟨hp1, hp2, hp3⟩ := pivotSearch_some_spec hp
      show RefInv R C (col + 1)
        (elimBelow (if p ≠ st.2 then swapRows st.1 st.2 p else st.1) st.2 col C,
          st.2 + 1)
      set d1 := if p ≠ st.2 then swapRows st.1 st.2 p else st.1 with hd1
      have hd1len : d1.length = R := by
        rw [hd1]
        split
        · rw [swapRows_length, h3]
        · exact h3
      have hd1get : ∀ r : ℕ, d1.getD r []
          = if r = p then st.1.getD st.2 []
            else if r = st.2 then st.1.getD p [] else st.1.getD r [] := by
        intro r
        rw [hd1]
        by_cases hps : p = st.2
        · rw [if_neg (show ¬ p ≠ st.2 from fun hcon => hcon hps)]
          by_cases hrp : r = p
          · rw [if_pos hrp, hrp, hps]
          · rw [if_neg hrp, if_neg (by omega)]
        · rw [if_pos hps, swapRows_getD st.1 (by omega) (by omega) r]
      have hd1small : ∀ r, st.2 ≤ r → ∀ c < col, |(d1.getD r []).getD c 0| ≤ tol := by
        intro r hr c hc
        rw [hd1get r]
        split
        · exact h5 st.2 (le_refl _) c hc
        · split
          · exact h5 p hp1 c hc
          · exact h5 r hr c hc
      have hd1rows : ∀ r < d1.length, (d1.getD r []).length = C := by
        intro r hr
        rw [hd1get r]
        split
        · exact h4 st.2 (by omega)
        · split
          · exact h4 p (by omega)
          · exact h4 r (by omega)
      have hd1piv : tol < |(d1.getD st.2 []).getD col 0| := by
        rw [hd1get st.2]
        by_cases hps : st.2 = p
        · rw [if_pos hps, hps]
          exact hp3
        · rw [if_neg hps, if_pos rfl]
          exact hp3
      have hpivne : (d1.getD st.2 []).getD col 0 ≠ 0 := by
        intro hcontra
        rw [hcontra] at hd1piv
        simp at hd1piv
        exact absurd hd1piv (not_lt_of_le (le_of_lt tol_pos))
      refine ⟨by omega, by omega, by rw [elimBelow_length, hd1len], ?_, ?_⟩
      · intro r hr
        rw [elimBelow_length] at hr
        by_cases hcase : st.2 < r ∧ r < d1.length
        · rw [elimBelow_getD_in hcase.1 hcase.2]
          rw [List.length_mapIdx]
          exact hd1rows r hr
        · rw [elimBelow_getD_out hcase]
          exact hd1rows r hr
      · intro r hr c hc
        rcases Nat.lt_or_ge r (d1.length) with hrlen | hrlen
        swap
        · have hlen : (elimBelow d1 st.2 col C).length ≤ r := by
            rw [elimBelow_length]
            omega
          rw [getD_eq_default _ hlen []]
          simp [le_of_lt tol_pos]
        · have hrgt : st.2 < r := by omega
          rw [elimBelow_getD_in hrgt hrlen]
          have hrowlenC : (d1.getD r []).length = C := hd1rows r hrlen
          rcases Nat.lt_or_ge c col with hcc | hcc
          · rw [getD_mapIdx _ _ (by omega) 0, if_neg (by omega)]
            exact hd1small r (by omega) c hcc
          · have hccol : c = col := by omega
            subst hccol
            rw [getD_mapIdx _ _ (by omega) 0, if_pos ⟨le_refl _, hcol⟩]
            rw [div_mul_cancel₀ _ hpivne]
            simp [le_of_lt tol_pos]

/-- The invariant carried over a block of consecutive columns. -/
lemma foldl_refStep_inv {R C : ℕ} :
    ∀ (k c0 : ℕ) (st : List (List ℚ) × ℕ), c0 + k ≤ C → RefInv R C c0 st →
      RefInv R C (c0 + k) (List.foldl (refStep R C) st (List.range' c0 k)) := by
  intro k
  induction k with
  | zero =>
    intro c0 st _ h
    simpa using h
  | succ n ih =>
    intro c0 st hle h
    have hstep := refStep_inv (show c0 < C by omega) h
    have := ih (c0 + 1) (refStep R C st c0) (by omega) hstep
    rw [show List.range' c0 (n + 1) = c0 :: List.range' (c0 + 1) n from rfl]
    rw [List.foldl_cons]
    have harith : c0 + 1 + n = c0 + (n + 1) := by omega
    rw [harith] at this
    exact this

/-- The row-echelon form of a well-formed nonempty matrix: its data is the
final fold state, which satisfies the invariant at `col = nbCols`. -/
lemma ToRowEchelon_spec {m : Matrix} (hw : m.WF) (hr : 0 < m.nbRows)
    (hc : 0 < m.nbCols) :
    m.ToRowEchelon
        = Matrix.mk ((List.range m.nbCols).foldl
            (refStep m.nbRows m.nbCols) (m.data, 0)).1 m.nbRows m.nbCols ∧
      RefInv m.nbRows m.nbCols m.nbCols
        ((List.range m.nbCols).foldl (refStep m.nbRows m.nbCols) (m.data, 0)) := by
  constructor
  · unfold Matrix.ToRowEchelon
    rw [if_neg (by omega)]
    have hne : m.data ≠ [] := by
      intro hcontra
      have := hw.1
      rw [hcontra] at this
      simp at this
      omega
    rw [NewFromData_uniform hne hw.2]
    simp only
    rw [hw.1]
  · have hinit : RefInv m.nbRows m.nbCols 0 (m.data, 0) := by
      refine ⟨le_refl _, by omega, hw.1, ?_, ?_⟩
      · intro r hrl
        exact hw.2 _ (getD_mem m.data hrl [])
      · intro r _ c hc
        omega
    have := foldl_refStep_inv m.nbCols 0 (m.data, 0) (by omega) hinit
    rw [List.range_eq_range']
    simpa using this

lemma countP_le_of_ge_false {α : Type} (p : α → Bool) (l : List α) (k : ℕ)
    (h : ∀ i (hi : i < l.length), k ≤ i → ¬ p l[i]) : l.countP p ≤ k := by
  have hsplit : l.countP p = (l.take k).countP p + (l.drop k).countP p := by
    rw [← List.countP_append, List.take_append_drop]
  have hdrop : (l.drop k).countP p = 0 := by
    apply List.countP_eq_zero.mpr
    intro a ha
    obtain ⟨i, hi, hget⟩ := List.mem_iff_getElem.mp ha
    have hi' : k + i < l.length := by
      have := hi
      simp at this
      omega
    rw [List.getElem_drop] at hget
    rw [← hget]
    exact h (k + i) hi' (by omega)
  calc l.countP p = (l.take k).countP p + 0 := by rw [hsplit, hdrop]
    _ = (l.take k).countP p := by omega
    _ ≤ (l.take k).length := List.countP_le_length p
    _ ≤ k := by
        rw [List.length_take]
        exact min_le_left _ _

lemma countP_New_zero (R C : ℕ) :
    (New R C).data.countP (fun row => row.any (fun val => tol < |val|)) = 0 := by
  apply List.countP_eq_zero.mpr
  intro row hrow
  simp only [New, List.mem_replicate] at hrow
  rw [hrow.2]
  simp only [List.any_eq_true, List.mem_replicate, decide_eq_true_eq, not_exists]
  rintro val ⟨⟨_, rfl⟩, hvl⟩
  rw [abs_zero] at hvl
  exact absurd hvl (not_lt_of_le (le_of_lt tol_pos))

/-- `rank(A) ≤ min(nbRows, nbCols)` for every well-formed matrix: rows at or
below the final pivot counter carry only sub-threshold entries, and the
counter is bounded by both extents. -/
lemma Rank_le_min {m : Matrix} (hw : m.WF) : m.Rank ≤ min m.nbRows m.nbCols := by
  unfold Matrix.Rank
  by_cases hempty : m.nbRows = 0 ∨ m.nbCols = 0
  · unfold Matrix.ToRowEchelon
    rw [if_pos hempty, countP_New_zero]
    omega
  · push_neg at hempty
    obtain ⟨heq, hinv⟩ := ToRowEchelon_spec hw (by omega) (by omega)
    rw [heq]
    obtain ⟨i1, i2, i3, i4, i5⟩ := hinv
    set st := (List.range m.nbCols).foldl (refStep m.nbRows m.nbCols) (m.data, 0)
      with hst
    apply le_min
    · calc st.1.countP _ ≤ st.1.length := List.countP_le_length _
        _ = m.nbRows := i3
    · have hcount : st.1.countP (fun row => row.any (fun val => tol < |val|)) ≤ st.2 := by
        apply countP_le_of_ge_false
        intro i hi hge
        simp only [List.any_eq_true, decide_eq_true_eq, not_exists]
        rintro val ⟨hmem, hvl⟩
        obtain ⟨c, hc, hcval⟩ := List.mem_iff_getElem.mp hmem
        have hlen2 : st.1[i].length = m.nbCols := by
          rw [← getD_eq_getElem st.1 hi []]
          exact i4 i hi
        have hc' : c < m.nbCols := by
          rw [hlen2] at hc
          exact hc
        have hval : val = (st.1.getD i []).getD c 0 := by
          rw [getD_eq_getElem st.1 hi [], getD_eq_getElem _ hc 0]
          exact hcval.symm
        rw [hval] at hvl
        exact absurd hvl (not_lt_of_le (i5 i hge c hc'))
      calc st.1.countP _ ≤ st.2 := hcount
        _ ≤ m.nbCols := i1

/-- On all-zero data the pivot search never fires, so a column step leaves
the state unchanged. -/
lemma refStep_zero {R C : ℕ} {d : List (List ℚ)}
    (hz : ∀ r c : ℕ, (d.getD r []).getD c 0 = 0) (col : ℕ) :
    refStep R C (d, 0) col = (d, 0) := by
  unfold refStep
  by_cases h0 : (0 : ℕ) < R
  · rw [if_pos h0]
    have hnone : pivotSearch d 0 R col = none := by
      unfold pivotSearch
      rw [List.find?_eq_none]
      intro x _
      simp only [decide_eq_true_eq]
      rw [hz x col, abs_zero]
      exact not_lt_of_le (le_of_lt tol_pos)
    rw [hnone]
  · rw [if_neg h0]

lemma foldl_refStep_zero {R C : ℕ} {d : List (List ℚ)}
    (hz : ∀ r c : ℕ, (d.getD r []).getD c 0 = 0) :
    ∀ l : List ℕ, List.foldl (refStep R C) (d, 0) l = (d, 0) := by
  intro l
  induction l with
  | nil => rfl
  | cons a t ih =>
    rw [List.foldl_cons, refStep_zero hz a]
    exact ih

/-- The rank of every well-formed all-zero matrix is 0. -/
lemma Rank_zero {m : Matrix} (hw : m.WF) (hz : m.IsZero = true) : m.Rank = 0 := by
  have hzd : ∀ r c : ℕ, (m.data.getD r []).getD c 0 = 0 := by
    intro r c
    rcases Nat.lt_or_ge r m.data.length with hr | hr
    swap
    · rw [getD_eq_default _ hr []]
      simp [List.getD]
    · have hrowlen : (m.data.getD r []).length = m.nbCols :=
        hw.2 _ (getD_mem m.data hr [])
      rcases Nat.lt_or_ge c m.nbCols with hc | hc
      · have hlen := hw.1
        have : (m.data.getD r []).getD c 0 = m.get r c := rfl
        rw [this]
        exact isZero_iff.mp hz r (by omega) c hc
      · have hdef : (m.data.getD r []).length ≤ c := by
          rw [hrowlen]
          omega
        rw [getD_eq_default _ hdef 0]
  unfold Matrix.Rank
  by_cases hempty : m.nbRows = 0 ∨ m.nbCols = 0
  · unfold Matrix.ToRowEchelon
    rw [if_pos hempty, countP_New_zero]
  · push_neg at hempty
    obtain ⟨heq, _⟩ := ToRowEchelon_spec hw (by omega) (by omega)
    rw [heq]
    rw [List.range_eq_range', foldl_refStep_zero hzd]
    show m.data.countP (fun row => row.any (fun val => tol < |val|)) = 0
    apply List.countP_eq_zero.mpr
    intro row hrow
    obtain ⟨i, hi, hrowi⟩ := List.mem_iff_getElem.mp hrow
    simp only [List.any_eq_true, decide_eq_true_eq, not_exists]
    rintro val ⟨hmem, hvl⟩
    obtain ⟨c, hc, hcval⟩ := List.mem_iff_getElem.mp hmem
    have hval : val = (m.data.getD i []).getD c 0 := by
      rw [getD_eq_getElem m.data hi [], hrowi, getD_eq_getElem _ hc 0]
      exact hcval.symm
    rw [hval, hzd, abs_zero] at hvl
    exact absurd hvl (not_lt_of_le (le_of_lt tol_pos))

/-! ## Determinant wrappers, invertibility, inversion -/

lemma IsSquare_eq {m : Matrix} (h : m.IsSquare = true) : m.nbCols = m.nbRows := by
  simpa [Matrix.IsSquare] using h

lemma Determinant_square {m : Matrix} (hsq : m.IsSquare = true) :
    m.Determinant = .ok m.determinantRecursive := by
  unfold Matrix.Determinant
  rw [hsq]
  rfl

lemma Determinant_spec {m : Matrix} (hw : m.WF) (hsq : m.IsSquare = true) :
    m.Determinant = .ok (specDet m.nbRows m.get) := by
  rw [Determinant_square hsq]
  unfold Matrix.determinantRecursive
  rw [detAux_eq_specDet m.nbRows m hw rfl (IsSquare_eq hsq)]

lemma Determinant_nonsquare {m : Matrix} (hsq : m.IsSquare = false) :
    m.Determinant = .error .notSquareError := by
  unfold Matrix.Determinant
  rw [hsq]
  rfl

lemma IsInvertible_props {m : Matrix} (h : m.IsInvertible = true) :
    m.IsFullRank = true ∧ m.IsSquare = true ∧ tol ≤ |m.determinantRecursive| := by
  unfold Matrix.IsInvertible at h
  by_cases h1 : m.IsFullRank = true
  swap
  · rw [Bool.not_eq_true] at h1
    rw [h1] at h
    simp at h
  · rw [h1] at h
    simp only [Bool.not_true, Bool.false_eq_true, if_false] at h
    by_cases h2 : m.IsSquare = true
    swap
    · rw [Bool.not_eq_true] at h2
      rw [h2] at h
      simp at h
    · rw [h2] at h
      simp only [Bool.not_true, Bool.false_eq_true, if_false] at h
      rw [Determinant_square h2] at h
      simp only [Bool.not_eq_true', decide_eq_false_iff_not, not_lt] at h
      exact ⟨h1, h2, h⟩

lemma IsInvertible_rows_pos {m : Matrix} (h : m.IsInvertible = true) :
    0 < m.nbRows := by
  obtain ⟨_, _, hdet⟩ := IsInvertible_props h
  by_contra hcon
  have h0 : m.nbRows = 0 := by omega
  have hz : m.determinantRecursive = 0 := by
    unfold Matrix.determinantRecursive
    rw [h0]
    rfl
  rw [hz, abs_zero] at hdet
  exact absurd hdet (not_le_of_lt tol_pos)

lemma IsInvertible_nonsquare {m : Matrix} (h : m.IsSquare = false) :
    m.IsInvertible = false := by
  unfold Matrix.IsInvertible
  by_cases h1 : m.IsFullRank = true
  · rw [h1, h]
    rfl
  · rw [Bool.not_eq_true] at h1
    rw [h1]
    rfl

lemma Invert_not_invertible {m : Matrix} (h : m.IsInvertible = false) :
    m.Invert = .error .singularError := by
  unfold Matrix.Invert
  rw [h]
  rfl

/-- The 2×2 closed-form branch of `Invert`: on an invertible well-formed
2×2 matrix the defensive determinant re-check cannot fire, and the
closed-form inverse is returned. -/
lemma Invert_two {m : Matrix} (hw : m.WF) (h2c : m.nbCols = 2)
    (hinv : m.IsInvertible = true) :
    ¬(|m.get 0 0 * m.get 1 1 - m.get 0 1 * m.get 1 0| < tol) ∧
      m.Invert = .ok (Matrix.mk
        [[m.get 1 1 * (1 / (m.get 0 0 * m.get 1 1 - m.get 0 1 * m.get 1 0)),
          -m.get 0 1 * (1 / (m.get 0 0 * m.get 1 1 - m.get 0 1 * m.get 1 0))],
         [-m.get 1 0 * (1 / (m.get 0 0 * m.get 1 1 - m.get 0 1 * m.get 1 0)),
          m.get 0 0 * (1 / (m.get 0 0 * m.get 1 1 - m.get 0 1 * m.get 1 0))]]
        2 2) := by
  obtain ⟨_, hsq, hdet⟩ := IsInvertible_props hinv
  have h2r : m.nbRows = 2 := by
    have := IsSquare_eq hsq
    omega
  have hdet2 : m.determinantRecursive
      = m.get 0 0 * m.get 1 1 - m.get 0 1 * m.get 1 0 := by
    unfold Matrix.determinantRecursive
    rw [h2r]
    simp [detAux, h2r]
  rw [hdet2] at hdet
  have hnolt : ¬(|m.get 0 0 * m.get 1 1 - m.get 0 1 * m.get 1 0| < tol) :=
    not_lt.mpr hdet
  refine ⟨hnolt, ?_⟩
  unfold Matrix.Invert
  rw [hinv]
  simp only [Bool.not_true, Bool.false_eq_true, if_false]
  rw [hsq]
  simp only [Bool.not_true, Bool.false_eq_true, if_false]
  rw [if_pos h2c, if_neg hnolt]
  rw [NewFromData_uniform (by simp) (by
    intro row hrow
    simp only [List.mem_cons, List.not_mem_nil, or_false] at hrow
    rcases hrow with rfl | rfl
    · rfl
    · rfl)]
  rfl

/-- Every `Invert` failure on a non-square matrix is the singular error:
the `isInvertible` pre-check fires first, so the defensive non-square
branch is dead code. -/
lemma Invert_nonsquare {m : Matrix} (hsq : m.IsSquare = false) :
    m.Invert = .error .singularError :=
  Invert_not_invertible (IsInvertible_nonsquare hsq)

/-! ## The Gauss-Jordan loop of `Invert`: shapes and failure kinds -/

lemma foldlM_except_inv {σ α : Type} (f : σ → α → Except LinError σ) (P : σ → Prop) :
    ∀ (l : List α) (init stF : σ), P init →
      (∀ st a st', a ∈ l → P st → f st a = .ok st' → P st') →
      List.foldlM f init l = .ok stF → P stF := by
  intro l
  induction l with
  | nil =>
    intro init stF hP _ h
    cases h
    exact hP
  | cons a t ih =>
    intro init stF hP hstep h
    rw [List.foldlM_cons] at h
    cases hf : f init a with
    | error e =>
      rw [hf] at h
      cases h
    | ok st1 =>
      rw [hf] at h
      exact ih st1 stF (hstep init a st1 (by simp) hP hf)
        (fun st b st' hb => hstep st b st' (by simp [hb])) h

lemma foldlM_except_error {σ α : Type} (f : σ → α → Except LinError σ)
    (hf : ∀ st a e, f st a = .error e → e = .singularError) :
    ∀ (l : List α) (init : σ) (e : LinError),
      List.foldlM f init l = .error e → e = .singularError := by
  intro l
  induction l with
  | nil =>
    intro init e h
    cases h
  | cons a t ih =>
    intro init e h
    rw [List.foldlM_cons] at h
    cases hfa : f init a with
    | error e' =>
      rw [hfa] at h
      cases h
      exact hf init a _ hfa
    | ok st1 =>
      rw [hfa] at h
      exact ih st1 e h

lemma gjStep_error {n : ℕ} {st : List (List ℚ) × List (List ℚ)} {i : ℕ}
    {e : LinError} (h : gjStep n st i = .error e) : e = .singularError := by
  unfold gjStep at h
  by_cases hc : (findPivot st.1 i n).2 < tol
  · rw [if_pos hc] at h
    cases h
    rfl
  · rw [if_neg hc] at h
    cases h

lemma findPivot_lt {mc : List (List ℚ)} {i n : ℕ} (hi : i < n) :
    (findPivot mc i n).1 < n := by
  unfold findPivot
  have key : ∀ (l : List ℕ) (acc : ℕ × ℚ), (∀ x ∈ l, x < n) → acc.1 < n →
      (l.foldl (fun acc r =>
        let v := |(mc.getD r []).getD i 0|
        if acc.2 < v then (r, v) else acc) acc).1 < n := by
    intro l
    induction l with
    | nil =>
      intro acc _ h
      exact h
    | cons a t ih =>
      intro acc hmem hacc
      rw [List.foldl_cons]
      refine ih _ (fun x hx => hmem x (List.mem_cons_of_mem _ hx)) ?_
      show (if acc.2 < |(mc.getD a []).getD i 0|
        then (a, |(mc.getD a []).getD i 0|) else acc).1 < n
      split
      · exact hmem a (List.mem_cons_self _ _)
      · exact hacc
  apply key
  · intro x hx
    rw [drop_range, List.mem_range'] at hx
    obtain ⟨k, hk, rfl⟩ := hx
    omega
  · exact hi

/-- Shape of one side of the Gauss-Jordan state. -/
def GJShape (n : ℕ) (d : List (List ℚ)) : Prop :=
  d.length = n ∧ ∀ r < n, (d.getD r []).length = n

lemma swap_shape {d : List (List ℚ)} {n i j : ℕ} (h : GJShape n d)
    (hi : i < n) (hj : j < n) : GJShape n (swapRows d i j) := by
  obtain ⟨hlen, hrows⟩ := h
  refine ⟨by rw [swapRows_length, hlen], ?_⟩
  intro r hr
  rw [swapRows_getD d (by omega) (by omega) r]
  split
  · exact hrows i hi
  · split
    · exact hrows j hj
    · exact hrows r hr

lemma normalize_shape {d : List (List ℚ)} {n i : ℕ} {piv : ℚ} (h : GJShape n d)
    (hi : i < n) : GJShape n (normalizeRow d i n piv) := by
  obtain ⟨hlen, hrows⟩ := h
  refine ⟨by rw [normalizeRow, List.length_set, hlen], ?_⟩
  intro r hr
  unfold normalizeRow
  by_cases hri : r = i
  · subst hri
    rw [getD_set_self _ _ _ (by omega)]
    rw [List.length_mapIdx]
    exact hrows r hr
  · rw [getD_set_ne _ _ _ hri]
    exact hrows r hr

lemma elimOthers_shape {d : List (List ℚ)} {facs : List ℚ} {n i : ℕ}
    (h : GJShape n d) : GJShape n (elimOthers d facs i n) := by
  obtain ⟨hlen, hrows⟩ := h
  refine ⟨by rw [elimOthers, List.length_mapIdx, hlen], ?_⟩
  intro r hr
  unfold elimOthers
  rw [getD_mapIdx _ _ (by omega) []]
  split
  · rw [List.length_mapIdx]
    exact hrows r hr
  · exact hrows r hr

lemma gjStep_shape {n : ℕ} {st st' : List (List ℚ) × List (List ℚ)} {i : ℕ}
    (hi : i < n) (h1 : GJShape n st.1) (h2 : GJShape n st.2)
    (h : gjStep n st i = .ok st') : GJShape n st'.1 ∧ GJShape n st'.2 := by
  unfold gjStep at h
  by_cases hc : (findPivot st.1 i n).2 < tol
  · rw [if_pos hc] at h
    cases h
  · rw [if_neg hc] at h
    have hpiv : (findPivot st.1 i n).1 < n := findPivot_lt hi
    cases h
    constructor
    · apply elimOthers_shape
      apply normalize_shape _ hi
      split
      · exact swap_shape h1 hi hpiv
      · exact h1
    · apply elimOthers_shape
      apply normalize_shape _ hi
      split
      · exact swap_shape h2 hi hpiv
      · exact h2

lemma NewIdentity_shape (n : ℕ) : GJShape n (NewIdentity n).data := by
  constructor
  · simp [NewIdentity]
  · intro r hr
    unfold NewIdentity
    rw [getD_map_range _ hr []]
    simp

lemma rows_indexed_to_mem {l : List (List ℚ)} {C : ℕ}
    (hlen : ∀ r < l.length, (l.getD r []).length = C) :
    ∀ row ∈ l, row.length = C := by
  intro row hrow
  obtain ⟨i, hi, hrowi⟩ := List.mem_iff_getElem.mp hrow
  rw [← hrowi, ← getD_eq_getElem l hi []]
  exact hlen i hi

/-- After the invertibility and squareness checks, for a non-2-column
well-formed matrix, `Invert` is the Gauss-Jordan fold on the deep copy and
the identity accumulator. -/
lemma Invert_general_eq {m : Matrix} (hw : m.WF) (hinv : m.IsInvertible = true)
    (h2 : m.nbCols ≠ 2) :
    m.Invert = (match List.foldlM (gjStep m.nbRows)
        (m.data, (NewIdentity m.nbRows).data) (List.range m.nbRows) with
      | .error e => (.error e : Except LinError Matrix)
      | .ok st => .ok (Matrix.mk st.2 m.nbRows m.nbRows)) := by
  obtain ⟨_, hsq, _⟩ := IsInvertible_props hinv
  have hrpos : 0 < m.nbRows := IsInvertible_rows_pos hinv
  have hne : m.data ≠ [] := by
    intro hcon
    have := hw.1
    rw [hcon] at this
    simp at this
    omega
  unfold Matrix.Invert
  rw [hinv]
  simp only [Bool.not_true, Bool.false_eq_true, if_false]
  rw [hsq]
  simp only [Bool.not_true, Bool.false_eq_true, if_false]
  rw [if_neg h2, NewFromData_uniform hne hw.2]

/-- The shape of a successful inversion: a well-formed square matrix of the
same size. -/
lemma Invert_ok_shape {m b : Matrix} (hw : m.WF) (h : m.Invert = .ok b) :
    b.WF ∧ b.nbRows = m.nbRows ∧ b.nbCols = m.nbRows := by
  by_cases hinv : m.IsInvertible = true
  swap
  · rw [Bool.not_eq_true] at hinv
    rw [Invert_not_invertible hinv] at h
    cases h
  · obtain ⟨_, hsq, _⟩ := IsInvertible_props hinv
    have hcr : m.nbCols = m.nbRows := IsSquare_eq hsq
    by_cases h2 : m.nbCols = 2
    · rw [(Invert_two hw h2 hinv).2] at h
      cases h
      refine ⟨⟨rfl, ?_⟩, show 2 = m.nbRows by omega, show 2 = m.nbRows by omega⟩
      intro row hrow
      simp only [List.mem_cons, List.not_mem_nil, or_false] at hrow
      rcases hrow with rfl | rfl
      · rfl
      · rfl
    · rw [Invert_general_eq hw hinv h2] at h
      cases hfold : List.foldlM (gjStep m.nbRows)
          (m.data, (NewIdentity m.nbRows).data) (List.range m.nbRows) with
      | error e =>
        rw [hfold] at h
        cases h
      | ok stF =>
        rw [hfold] at h
        cases h
        have hinit1 : GJShape m.nbRows m.data := by
          refine ⟨hw.1, ?_⟩
          intro r hr
          rw [← hcr]
          exact hw.2 _ (getD_mem m.data (by rw [hw.1]; omega) [])
        have hPF : GJShape m.nbRows stF.1 ∧ GJShape m.nbRows stF.2 := by
          apply foldlM_except_inv (gjStep m.nbRows)
            (fun st => GJShape m.nbRows st.1 ∧ GJShape m.nbRows st.2)
            (List.range m.nbRows) _ stF ⟨hinit1, NewIdentity_shape m.nbRows⟩ _ hfold
          intro st a st' ha hP hstep
          exact gjStep_shape (List.mem_range.mp ha) hP.1 hP.2 hstep
        refine ⟨⟨hPF.2.1, ?_⟩, rfl, rfl⟩
        apply rows_indexed_to_mem
        intro r hr
        apply hPF.2.2
        rw [← hPF.2.1]
        exact hr

/-- After the `isInvertible` check has passed on a well-formed matrix, any
`Invert` failure carries the singular kind. -/
lemma Invert_error_singular {m : Matrix} {e : LinError} (hw : m.WF)
    (hinv : m.IsInvertible = true) (h : m.Invert = .error e) :
    e = .singularError := by
  by_cases h2 : m.nbCols = 2
  · rw [(Invert_two hw h2 hinv).2] at h
    cases h
  · rw [Invert_general_eq hw hinv h2] at h
    cases hfold : List.foldlM (gjStep m.nbRows)
        (m.data, (NewIdentity m.nbRows).data) (List.range m.nbRows) with
    | error e' =>
      rw [hfold] at h
      cases h
      exact foldlM_except_error (gjStep m.nbRows)
        (fun st a e'' he => gjStep_error he) (List.range m.nbRows) _ _ hfold
    | ok stF =>
      rw [hfold] at h
      cases h

/-! ## `Pow` -/

lemma Pow_nonsquare {m : Matrix} (hsq : m.IsSquare = false) (p : ℤ) :
    m.Pow p = .error .notSquareError := by
  unfold Matrix.Pow
  rw [hsq]
  rfl

lemma Pow_zero {m : Matrix} (hsq : m.IsSquare = true) :
    m.Pow 0 = .ok (NewIdentity m.nbRows) := by
  unfold Matrix.Pow
  rw [hsq]
  rfl

lemma Pow_one {m : Matrix} (hw : m.WF) (hsq : m.IsSquare = true) :
    m.Pow 1 = .ok m := by
  unfold Matrix.Pow
  rw [hsq]
  show NewFromData m.data = .ok m
  exact NewFromData_self hw hsq

lemma Pow_neg_one {m : Matrix} (hw : m.WF) (hinv : m.IsInvertible = true) :
    m.Pow (-1) = m.Invert := by
  obtain ⟨_, hsq, _⟩ := IsInvertible_props hinv
  unfold Matrix.Pow
  rw [hsq]
  cases hI : m.Invert with
  | error e =>
    have he := Invert_error_singular hw hinv hI
    subst he
    rfl
  | ok b =>
    obtain ⟨hbw, hbr, hbc⟩ := Invert_ok_shape hw hI
    show List.foldlM (fun result _ => result.Mul b) (NewIdentity m.nbRows) [0]
      = Except.ok b
    rw [List.foldlM_cons, Mul_identity_left hbw hbr hbc]
    rfl

lemma Mul_WF {m other p : Matrix} (h : m.Mul other = .ok p) : p.WF := by
  unfold Matrix.Mul at h
  by_cases h1 : m.nbCols ≠ other.nbRows
  · rw [if_pos h1] at h
    cases h
  · rw [if_neg h1] at h
    by_cases hz : (m.IsZero || other.IsZero) = true
    · rw [if_pos hz] at h
      cases h
      exact New_WF _ _
    · rw [if_neg hz] at h
      cases h
      exact WF_mk_map _ _ _

lemma Mul_ok_dims {m other p : Matrix} (h : m.Mul other = .ok p) :
    p.nbRows = m.nbRows ∧ p.nbCols = other.nbCols := by
  unfold Matrix.Mul at h
  by_cases h1 : m.nbCols ≠ other.nbRows
  · rw [if_pos h1] at h
    cases h
  · rw [if_neg h1] at h
    by_cases hz : (m.IsZero || other.IsZero) = true
    · rw [if_pos hz] at h
      cases h
      exact ⟨rfl, rfl⟩
    · rw [if_neg hz] at h
      cases h
      exact ⟨rfl, rfl⟩

lemma Pow_ok_WF {m b : Matrix} {p : ℤ} (hw : m.WF) (h : m.Pow p = .ok b) :
    b.WF := by
  unfold Matrix.Pow at h
  by_cases hsq : m.IsSquare = true
  swap
  · rw [Bool.not_eq_true] at hsq
    rw [hsq] at h
    cases h
  · rw [hsq] at h
    simp only [Bool.not_true, Bool.false_eq_true, if_false] at h
    by_cases hp0 : p = 0
    · rw [if_pos hp0] at h
      cases h
      exact NewIdentity_WF _
    · rw [if_neg hp0] at h
      by_cases hp1 : p = 1
      · rw [if_pos hp1] at h
        exact NewFromData_WF h
      · rw [if_neg hp1] at h
        have hloop : ∀ base : Matrix, base.WF → base.nbRows = m.nbRows →
            base.nbCols = m.nbRows →
            List.foldlM (fun result (_ : ℕ) => result.Mul base)
              (NewIdentity m.nbRows) (List.range p.natAbs) = .ok b → b.WF := by
          intro base hbw hbr hbc hfold
          have hP := foldlM_except_inv
            (fun result (_ : ℕ) => result.Mul base)
            (fun st => st.WF ∧ st.nbRows = m.nbRows ∧ st.nbCols = m.nbRows)
            (List.range p.natAbs) (NewIdentity m.nbRows) b
            ⟨NewIdentity_WF _, rfl, rfl⟩ ?_ hfold
          · exact hP.1
          · intro st a st' _ hPst hstep
            obtain ⟨hd1, hd2⟩ := Mul_ok_dims hstep
            exact ⟨Mul_WF hstep, by omega, by rw [hd2, hbc]⟩
        by_cases hpneg : p < 0
        · rw [if_pos hpneg] at h
          cases hI : m.Invert with
          | error e =>
            rw [hI] at h
            cases h
          | ok binv =>
            rw [hI] at h
            obtain ⟨hbw, hbr, hbc⟩ := Invert_ok_shape hw hI
            exact hloop binv hbw hbr hbc h
        · rw [if_neg hpneg] at h
          exact hloop m hw rfl (IsSquare_eq hsq) h

lemma Add_WF {m other s : Matrix} (h : m.Add other = .ok s) : s.WF := by
  unfold Matrix.Add at h
  by_cases h1 : m.nbRows ≠ other.nbRows ∨ m.nbCols ≠ other.nbCols
  · rw [if_pos h1] at h
    cases h
  · rw [if_neg h1] at h
    cases h
    exact WF_mk_map _ _ _

lemma Sub_WF {m other s : Matrix} (h : m.Sub other = .ok s) : s.WF := by
  unfold Matrix.Sub at h
  by_cases h1 : m.nbRows ≠ other.nbRows ∨ m.nbCols ≠ other.nbCols
  · rw [if_pos h1] at h
    cases h
  · rw [if_neg h1] at h
    cases h
    exact WF_mk_map _ _ _

lemma NewFromFlat_WF {rows cols : ℕ} {values : List ℚ} {s : Matrix}
    (h : NewFromFlat rows cols values = .ok s) : s.WF := by
  unfold NewFromFlat at h
  by_cases h1 : values.length ≠ rows * cols
  · rw [if_pos h1] at h
    cases h
  · rw [if_neg h1] at h
    cases h
    exact WF_mk_map _ _ _

lemma NewDiagonal_WF (values : List ℚ) : (NewDiagonal values).WF :=
  WF_mk_map _ _ _

lemma ToRowEchelon_WF {m : Matrix} (hw : m.WF) : m.ToRowEchelon.WF := by
  by_cases hempty : m.nbRows = 0 ∨ m.nbCols = 0
  · unfold Matrix.ToRowEchelon
    rw [if_pos hempty]
    exact New_WF _ _
  · push_neg at hempty
    obtain ⟨heq, hinvr⟩ := ToRowEchelon_spec hw (by omega) (by omega)
    rw [heq]
    obtain ⟨_, _, i3, i4, _⟩ := hinvr
    refine ⟨i3, ?_⟩
    apply rows_indexed_to_mem
    exact i4

/-! ## Claim theorems -/

/-- C1: for every well-formed matrix, `Determinant` returns, on a square
receiver, exactly the specification's reference Laplace expansion (0.0 for
0×0, the sole element for 1×1, `ad-bc` for 2×2, and for n ≥ 3 the sum over
columns of `(-1)^col * A[0][col] * det(minor(0,col))` with row 0 and column
`col` removed), and fails with `NotSquareError` on a non-square receiver. -/
theorem C1_determinant_matches_laplace_spec (m : Matrix) (hw : m.WF) :
    (m.IsSquare = true → m.Determinant = .ok (specDet m.nbRows m.get)) ∧
    (m.IsSquare = false → m.Determinant = .error .notSquareError) :=
  ⟨fun hsq => Determinant_spec hw hsq, fun hsq => Determinant_nonsquare hsq⟩

theorem C1_determinant_matches_laplace_spec_witness :
    Matrix.Determinant
        (Matrix.mk [[6, 1, 1], [4, -2, 5], [2, 8, 7]] 3 3)
      = .ok (specDet 3
        (Matrix.get (Matrix.mk [[6, 1, 1], [4, -2, 5], [2, 8, 7]] 3 3))) :=
  (C1_determinant_matches_laplace_spec _ (by decide)).1 (by decide)

/-- C2 counterexample: on the non-square 1×2 matrix `[[1,0]]`, `Invert`
fails with the singular error (the `IsInvertible` pre-check fires first),
not with the claimed not-square error. -/
theorem C2_counterexample :
    Matrix.IsSquare (Matrix.mk [[1, 0]] 1 2) = false ∧
    Matrix.Invert (Matrix.mk [[1, 0]] 1 2) = .error .singularError ∧
    Matrix.Invert (Matrix.mk [[1, 0]] 1 2) ≠ .error .notSquareError := by
  refine ⟨by decide, ?_, ?_⟩
  · with_unfolding_all decide
  · with_unfolding_all decide

/-- C2 (amended): every non-square matrix makes `Invert` fail with
`SingularError`, because the `IsInvertible` pre-check precedes the (dead)
defensive non-square check and a non-square matrix is never invertible;
every square matrix that is not invertible per `IsInvertible` also fails
with `SingularError`. -/
theorem C2_invert_error_kinds (m : Matrix) :
    (m.IsSquare = false → m.Invert = .error .singularError) ∧
    (m.IsSquare = true → m.IsInvertible = false →
      m.Invert = .error .singularError) :=
  ⟨fun hsq => Invert_nonsquare hsq,
   fun _ hinv => Invert_not_invertible hinv⟩

theorem C2_invert_error_kinds_witness :
    Matrix.Invert (Matrix.mk [[2, 0], [0, 0]] 2 2) = .error .singularError ∧
    Matrix.Invert (Matrix.mk [[3, 1], [4, 2], [5, 3]] 3 2)
      = .error .singularError :=
  ⟨(C2_invert_error_kinds _).2 (by decide) (by with_unfolding_all decide),
   (C2_invert_error_kinds _).1 (by decide)⟩

/-- C3 counterexample: the 0×5 matrix (constructible by `New 0 5`)
transposes to the 0×0 matrix, so its transpose is not of shape
`nbCols × nbRows` and the double transpose is not the original matrix. -/
theorem C3_counterexample :
    (New 0 5).Transpose.nbRows ≠ 5 ∧
    (New 0 5).Transpose.Transpose ≠ New 0 5 :=
  ⟨by decide, by decide⟩

/-- C3 (amended): for a well-formed matrix with both extents positive,
`Transpose` is a new `nbCols × nbRows` matrix with entry `(j,i)` equal to
the receiver's `(i,j)`, and the double transpose equals the receiver
exactly; a matrix with a zero extent maps to the 0×0 matrix, so the double
transpose equals the receiver exactly iff both extents are positive or the
receiver is 0×0. -/
theorem C3_transpose (m : Matrix) (hw : m.WF) :
    (0 < m.nbRows → 0 < m.nbCols →
      m.Transpose.nbRows = m.nbCols ∧ m.Transpose.nbCols = m.nbRows ∧
      m.Transpose.WF ∧
      (∀ i < m.nbRows, ∀ j < m.nbCols, m.Transpose.get j i = m.get i j) ∧
      m.Transpose.Transpose = m) ∧
    ((m.nbRows = 0 ∨ m.nbCols = 0) → m.Transpose = New 0 0) ∧
    (m.Transpose.Transpose = m ↔
      (0 < m.nbRows ∧ 0 < m.nbCols) ∨ (m.nbRows = 0 ∧ m.nbCols = 0)) := by
  refine ⟨?_, fun h => Transpose_empty h, ?_, ?_⟩
  · intro hr hc
    obtain ⟨hd1, hd2⟩ := Transpose_dims hr hc
    exact ⟨hd1, hd2, Transpose_WF m,
      fun i hi j hj => Transpose_get hr hc hi hj,
      Transpose_Transpose hw (Or.inl ⟨hr, hc⟩)⟩
  · intro heq
    rcases Nat.eq_zero_or_pos m.nbRows with hR | hR
    · rcases Nat.eq_zero_or_pos m.nbCols with hC | hC
      · exact Or.inr ⟨hR, hC⟩
      · exfalso
        have h1 : m.Transpose = New 0 0 := Transpose_empty (Or.inl hR)
        have h2 : m.Transpose.Transpose = New 0 0 := by
          rw [h1]
          exact Transpose_empty (Or.inl rfl)
        rw [h2] at heq
        have := congrArg Matrix.nbCols heq
        simp only [New] at this
        omega
    · rcases Nat.eq_zero_or_pos m.nbCols with hC | hC
      · exfalso
        have h1 : m.Transpose = New 0 0 := Transpose_empty (Or.inr hC)
        have h2 : m.Transpose.Transpose = New 0 0 := by
          rw [h1]
          exact Transpose_empty (Or.inl rfl)
        rw [h2] at heq
        have := congrArg Matrix.nbRows heq
        simp only [New] at this
        omega
      · exact Or.inl ⟨hR, hC⟩
  · exact Transpose_Transpose hw

theorem C3_transpose_witness :
    Matrix.Transpose (Matrix.Transpose (Matrix.mk [[1, 2, 3], [4, 5, 6]] 2 3))
      = Matrix.mk [[1, 2, 3], [4, 5, 6]] 2 3 :=
  ((C3_transpose _ (by decide)).1 (by decide) (by decide)).2.2.2.2

/-- C4: `Mul` fails with `DimensionMismatch` exactly when the inner
dimensions disagree; otherwise it returns an `nbRows(A) × nbCols(B)` matrix
whose `(i,j)` entry is `Σ_k A[i][k] * B[k][j]`, and when either operand is
the zero matrix the short-circuit returns a freshly allocated zero matrix
of the result shape, which coincides with that sum. -/
theorem C4_multiply (A B : Matrix) (hA : A.WF) (hB : B.WF) :
    (A.Mul B = .error .dimensionMismatch ↔ A.nbCols ≠ B.nbRows) ∧
    (A.nbCols = B.nbRows →
      ∃ p, A.Mul B = .ok p ∧ p.WF ∧ p.nbRows = A.nbRows ∧
        p.nbCols = B.nbCols ∧
        ∀ i < A.nbRows, ∀ j < B.nbCols,
          p.get i j = ∑ k ∈ Finset.range A.nbCols, A.get i k * B.get k j) ∧
    (A.nbCols = B.nbRows → A.IsZero = true ∨ B.IsZero = true →
      A.Mul B = .ok (New A.nbRows B.nbCols)) :=
  ⟨Mul_error_iff A B, fun h => Mul_ok hA hB h,
   fun h hz => Mul_zero_shortcircuit h hz⟩

theorem C4_multiply_witness :
    Matrix.Mul (Matrix.mk [[1, 2, 3], [4, 5, 6]] 2 3)
        (Matrix.mk [[1, 2], [3, 4]] 2 2) = .error .dimensionMismatch ∧
    Matrix.Mul (Matrix.mk [[1, 2, 3], [4, 5, 6]] 2 3)
        (Matrix.mk [[0, 0], [0, 0], [0, 0]] 3 2)
      = .ok (New 2 2) :=
  ⟨(C4_multiply _ _ (by decide) (by decide)).1.mpr (by decide),
   (C4_multiply _ _ (by decide) (by decide)).2.2 (by decide)
      (Or.inr (by decide))⟩

/-- C5: the rank of every well-formed matrix is at most the smaller extent,
and the rank of every well-formed all-zero matrix is 0, where `Rank` counts
the rows of the row-echelon form containing an entry of absolute value
above `1e-10`. -/
theorem C5_rank_bounds (m : Matrix) (hw : m.WF) :
    m.Rank ≤ min m.nbRows m.nbCols ∧ (m.IsZero = true → m.Rank = 0) :=
  ⟨Rank_le_min hw, fun hz => Rank_zero hw hz⟩

theorem C5_rank_bounds_witness :
    Matrix.Rank (Matrix.mk [[1, 2, 3], [4, 5, 6], [7, 8, 9]] 3 3) ≤ min 3 3 ∧
    Matrix.Rank (Matrix.mk [[0, 0, 0], [0, 0, 0]] 2 3) = 0 :=
  ⟨(C5_rank_bounds _ (by decide)).1,
   (C5_rank_bounds _ (by decide)).2 (by decide)⟩

/-- C6: on a well-formed square matrix, `Pow 0` is the identity of the same
size (even when the receiver is singular), `Pow 1` is a deep copy equal to
the receiver, and on an invertible receiver `Pow (-1)` agrees with
`Invert`; on a non-square receiver `Pow p` fails with `NotSquareError` for
every integer `p`. -/
theorem C6_pow (m : Matrix) (hw : m.WF) :
    (m.IsSquare = true →
      m.Pow 0 = .ok (NewIdentity m.nbRows) ∧ m.Pow 1 = .ok m) ∧
    (m.IsInvertible = true → m.Pow (-1) = m.Invert) ∧
    (m.IsSquare = false → ∀ p : ℤ, m.Pow p = .error .notSquareError) :=
  ⟨fun hsq => ⟨Pow_zero hsq, Pow_one hw hsq⟩,
   fun hinv => Pow_neg_one hw hinv,
   fun hsq p => Pow_nonsquare hsq p⟩

theorem C6_pow_witness :
    Matrix.Pow (Matrix.mk [[4, 7], [2, 6]] 2 2) 0 = .ok (NewIdentity 2) ∧
    Matrix.Pow (Matrix.mk [[4, 7], [2, 6]] 2 2) (-1)
      = Matrix.Invert (Matrix.mk [[4, 7], [2, 6]] 2 2) ∧
    Matrix.Pow (Matrix.mk [[1, 2, 3]] 1 3) 5 = .error .notSquareError :=
  ⟨((C6_pow _ (by decide)).1 (by decide)).1,
   (C6_pow _ (by decide)).2.1 (by with_unfolding_all decide),
   (C6_pow _ (by decide)).2.2 (by decide) 5⟩

/-- C7: every matrix produced by the public operations satisfies the shape
invariant: the row sequence has exactly `nbRows` rows and every row exactly
`nbCols` entries (for operations taking matrix inputs, assuming well-formed
inputs where the result reads them). -/
theorem C7_shape_invariant :
    (∀ r c : ℕ, (New r c).WF) ∧
    (∀ (d : List (List ℚ)) (s : Matrix), NewFromData d = .ok s → s.WF) ∧
    (∀ n : ℕ, (NewIdentity n).WF) ∧
    (∀ (r c : ℕ) (v : List ℚ) (s : Matrix), NewFromFlat r c v = .ok s → s.WF) ∧
    (∀ v : List ℚ, (NewDiagonal v).WF) ∧
    (∀ a b s : Matrix, a.Add b = .ok s → s.WF) ∧
    (∀ a b s : Matrix, a.Sub b = .ok s → s.WF) ∧
    (∀ (a : Matrix) (k : ℚ), a.WF → (a.MulScalar k).WF) ∧
    (∀ a b s : Matrix, a.Mul b = .ok s → s.WF) ∧
    (∀ a : Matrix, a.Transpose.WF) ∧
    (∀ a : Matrix, a.WF → a.ToRowEchelon.WF) ∧
    (∀ a s : Matrix, a.WF → a.Invert = .ok s → s.WF) ∧
    (∀ (a s : Matrix) (p : ℤ), a.WF → a.Pow p = .ok s → s.WF) :=
  ⟨New_WF,
   fun _ _ h => NewFromData_WF h,
   NewIdentity_WF,
   fun _ _ _ _ h => NewFromFlat_WF h,
   NewDiagonal_WF,
   fun _ _ _ h => Add_WF h,
   fun _ _ _ h => Sub_WF h,
   fun _ k hw => MulScalar_WF hw k,
   fun _ _ _ h => Mul_WF h,
   Transpose_WF,
   fun _ hw => ToRowEchelon_WF hw,
   fun _ _ hw h => (Invert_ok_shape hw h).1,
   fun _ _ _ hw h => Pow_ok_WF hw h⟩

theorem C7_shape_invariant_witness :
    (New 2 3).WF ∧ (Matrix.mk [[1, 2], [3, 4]] 2 2).WF ∧
    (NewIdentity 4).WF ∧ (Matrix.mk [[5, 6], [7, 8]] 2 2).WF ∧
    (NewDiagonal [1, 2, 3]).WF ∧
    (Matrix.mk [[6, 8], [10, 12]] 2 2).WF ∧
    (Matrix.mk [[4, 4], [4, 4]] 2 2).WF ∧
    (Matrix.MulScalar (Matrix.mk [[1, 2], [3, 4]] 2 2) 3).WF ∧
    (Matrix.mk [[19, 22], [43, 50]] 2 2).WF ∧
    (Matrix.Transpose (Matrix.mk [[1, 2], [3, 4]] 2 2)).WF ∧
    (Matrix.ToRowEchelon (Matrix.mk [[1, 2], [2, 4]] 2 2)).WF ∧
    (Matrix.mk [[3/5, -7/10], [-1/5, 2/5]] 2 2).WF ∧
    (Matrix.mk [[30, 70], [20, 50]] 2 2).WF :=
  ⟨C7_shape_invariant.1 2 3,
   C7_shape_invariant.2.1 [[1, 2], [3, 4]] _ (by decide),
   C7_shape_invariant.2.2.1 4,
   C7_shape_invariant.2.2.2.1 2 2 [5, 6, 7, 8] _ (by decide),
   C7_shape_invariant.2.2.2.2.1 [1, 2, 3],
   C7_shape_invariant.2.2.2.2.2.1 (Matrix.mk [[1, 2], [3, 4]] 2 2)
     (Matrix.mk [[5, 6], [7, 8]] 2 2) _ (by with_unfolding_all decide),
   C7_shape_invariant.2.2.2.2.2.2.1 (Matrix.mk [[5, 6], [7, 8]] 2 2)
     (Matrix.mk [[1, 2], [3, 4]] 2 2) _ (by with_unfolding_all decide),
   C7_shape_invariant.2.2.2.2.2.2.2.1 (Matrix.mk [[1, 2], [3, 4]] 2 2) 3
     (by decide),
   C7_shape_invariant.2.2.2.2.2.2.2.2.1 (Matrix.mk [[1, 2], [3, 4]] 2 2)
     (Matrix.mk [[5, 6], [7, 8]] 2 2) _ (by with_unfolding_all decide),
   C7_shape_invariant.2.2.2.2.2.2.2.2.2.1 (Matrix.mk [[1, 2], [3, 4]] 2 2),
   C7_shape_invariant.2.2.2.2.2.2.2.2.2.2.1 (Matrix.mk [[1, 2], [2, 4]] 2 2)
     (by decide),
   C7_shape_invariant.2.2.2.2.2.2.2.2.2.2.2.1 (Matrix.mk [[4, 7], [2, 6]] 2 2)
     _ (by decide) (by with_unfolding_all decide),
   C7_shape_invariant.2.2.2.2.2.2.2.2.2.2.2.2 (Matrix.mk [[4, 7], [2, 6]] 2 2)
     _ 2 (by decide) (by with_unfolding_all decide)⟩

/-- C8: `NewFromData` yields the canonical 0×0 matrix on an empty input
(not an error), fails with `ShapeError` exactly when some row's length
differs from the first row's length, and on success the result's data (a
functional deep copy) equals the input. -/
theorem C8_fromRows :
    NewFromData ([] : List (List ℚ)) = .ok (Matrix.mk [] 0 0) ∧
    (∀ d : List (List ℚ),
      (NewFromData d = .error .shapeError ↔
        ∃ row ∈ d, row.length ≠ (d.headD []).length)) ∧
    (∀ (d : List (List ℚ)) (s : Matrix), NewFromData d = .ok s → s.data = d) :=
  ⟨rfl, fun d => NewFromData_error_iff d, fun _ _ h => NewFromData_ok_data h⟩

theorem C8_fromRows_witness :
    NewFromData [[1, 2], [3]] = .error .shapeError ∧
    (Matrix.mk [[1, 2], [3, 4]] 2 2).data = [[1, 2], [3, 4]] :=
  ⟨(C8_fromRows.2.1 [[1, 2], [3]]).mpr (by decide),
   C8_fromRows.2.2 [[1, 2], [3, 4]] (Matrix.mk [[1, 2], [3, 4]] 2 2)
     (by decide)⟩

/-- C9: every entry of `MulScalar` is the receiver's entry times the
scalar; when the receiver is the zero matrix or the scalar is `1.0`, the
receiver itself is returned unchanged (value-level identity of the
alias-returning short-circuit), and the embedding is pure, so the receiver
is never mutated. -/
theorem C9_scale (m : Matrix) (k : ℚ) (hw : m.WF) :
    (∀ i < m.nbRows, ∀ j < m.nbCols,
      (m.MulScalar k).get i j = m.get i j * k) ∧
    ((m.IsZero || k == 1) = true → m.MulScalar k = m) ∧
    (m.MulScalar k).nbRows = m.nbRows ∧ (m.MulScalar k).nbCols = m.nbCols :=
  ⟨fun i hi j hj => MulScalar_get hw k hi hj,
   fun h => MulScalar_shortcircuit h,
   (MulScalar_dims m k).1, (MulScalar_dims m k).2⟩

theorem C9_scale_witness :
    Matrix.MulScalar (Matrix.mk [[0, 0], [0, 0]] 2 2) 5
        = Matrix.mk [[0, 0], [0, 0]] 2 2 ∧
    (Matrix.MulScalar (Matrix.mk [[1, 2], [3, 4]] 2 2) 3).get 0 1
      = (Matrix.mk [[1, 2], [3, 4]] 2 2).get 0 1 * 3 :=
  ⟨(C9_scale _ 5 (by decide)).2.1 (by decide),
   (C9_scale _ 3 (by decide)).1 0 (by decide) 1 (by decide)⟩

/-- C10: on a well-formed invertible 2×2 matrix the defensive determinant
re-check inside the closed-form branch of `Invert` cannot fire, because
`IsInvertible` already required the same value `ad - bc` to have absolute
value at least `1e-10`; `Invert` therefore returns the closed-form
inverse. -/
theorem C10_invert_2x2_recheck_unreachable (m : Matrix) (hw : m.WF)
    (h2r : m.nbRows = 2) (h2c : m.nbCols = 2) (hinv : m.IsInvertible = true) :
    ¬(|m.get 0 0 * m.get 1 1 - m.get 0 1 * m.get 1 0| < tol) ∧
      m.Invert = .ok (Matrix.mk
        [[m.get 1 1 * (1 / (m.get 0 0 * m.get 1 1 - m.get 0 1 * m.get 1 0)),
          -m.get 0 1 * (1 / (m.get 0 0 * m.get 1 1 - m.get 0 1 * m.get 1 0))],
         [-m.get 1 0 * (1 / (m.get 0 0 * m.get 1 1 - m.get 0 1 * m.get 1 0)),
          m.get 0 0 * (1 / (m.get 0 0 * m.get 1 1 - m.get 0 1 * m.get 1 0))]]
        2 2) :=
  Invert_two hw h2c hinv

theorem C10_invert_2x2_recheck_unreachable_witness :
    ¬(|(4 : ℚ) * 6 - 7 * 2| < tol) :=
  (C10_invert_2x2_recheck_unreachable (Matrix.mk [[4, 7], [2, 6]] 2 2)
    (by decide) (by decide) (by decide) (by with_unfolding_all decide)).1

end Linalgo
